import Mathlib

/-!  Verification development for the ESP data-streamer client
     (`src/python/data-streamer/client.py`).

     The incremental multipart stream decoder
     `Client._handle_multipart_response`, the single-file handler
     `Client._handle_single_file_response`, the speed tracker
     (`_calculate_speed` / `_format_speed`) and the dispatcher
     `Client.download` are embedded shallowly over byte lists, and the
     specification's claims about them are settled as theorems. -/

/-! ## Byte-level primitives -/

/-- Bytes are modelled as natural numbers (the Python code works on
`bytes` / `bytearray` values). -/
abbrev Byte := Nat

/-- Model of Python `bytes.find` / `str`-search: index of the first
occurrence of `pat` in `s`, or `none` (Python returns `-1`). -/
def findSub {α : Type} [DecidableEq α] (pat : List α) : List α → Option Nat
  | [] => if pat.isPrefixOf ([] : List α) then some 0 else none
  | a :: t => if pat.isPrefixOf (a :: t) then some 0 else (findSub pat t).map (· + 1)

/-- `b'\r\n--' + boundary`, the start-of-part marker. -/
def marker (b : List Byte) : List Byte := [13, 10, 45, 45] ++ b

/-- `b'\r\n--%b--' % boundary`, the terminal marker. -/
def terminalMarker (b : List Byte) : List Byte := [13, 10, 45, 45] ++ b ++ [45, 45]

/-- The header-terminator sequence `b'\r\n\r\n'`. -/
def crlf2 : List Byte := [13, 10, 13, 10]

/-- The bytes of the literal `X-Part-Name:`. -/
def xpnKey : List Byte := [88, 45, 80, 97, 114, 116, 45, 78, 97, 109, 101, 58]

/-- Python regex `\s` on ASCII bytes. -/
def isWs (c : Byte) : Bool := c = 32 || c = 9 || c = 10 || c = 13 || c = 11 || c = 12

/-- One attempted match of the regex `X-Part-Name:\s*"([^"]+)"` anchored at
the head of `s` (greedy `\s*`, then an opening quote, a non-empty run of
non-quote bytes, and a closing quote). -/
def matchNameAt (s : List Byte) : Option (List Byte) :=
  if xpnKey.isPrefixOf s then
    match (s.drop 12).dropWhile isWs with
    | 34 :: r =>
      let g := r.takeWhile (· ≠ 34)
      let rest := r.dropWhile (· ≠ 34)
      if g = [] then none
      else if rest = [] then none
      else some g
    | _ => none
  else none

/-- Model of `re.search(r'X-Part-Name:\s*"([^"]+)"', headers)`: try every
start position from the left, returning the first successful capture. -/
def extractPartName : List Byte → Option (List Byte)
  | [] => none
  | a :: t =>
    match matchNameAt (a :: t) with
    | some g => some g
    | none => extractPartName t

/-! ## Decoder state -/

/-- The file currently open for writing (`current_file`).  `closed` records
whether `close()` has been called while the variable still references the
file (only possible in the dead terminal-marker branch). -/
structure OpenFile where
  name : List Byte
  content : List Byte
  closed : Bool
deriving DecidableEq, Repr

/-- Decoder state: the accumulation buffer, the optional open file, the
closed output files in creation order, whether the `print("Done")` success
branch was ever reached, and the byte counter `tot_bytes`. -/
structure MState where
  buffer : List Byte
  current : Option OpenFile
  files : List (List Byte × List Byte)
  done : Bool
  totBytes : Nat
deriving DecidableEq, Repr

/-- The exceptions the client code can raise and the orchestrator catches. -/
inductive PyErr where
  | noBoundary
  | unicodeDecode
  | closedFileWrite
  | noContentDisposition
  | noFilename
  | httpStatus
  | transport
deriving DecidableEq, Repr

/-- `current_file.write(data)`; writing to a closed file raises
`ValueError`. -/
def writeFile (f : OpenFile) (data : List Byte) : Except PyErr OpenFile :=
  if f.closed then .error .closedFileWrite
  else .ok { f with content := f.content ++ data }

/-- The `if current_file: current_file.close(); current_file = None` step of
the start-of-part branch.  Closing records the finished file on disk;
`close()` on an already-closed file is a no-op. -/
def closeCurrent (st : MState) : MState :=
  match st.current with
  | none => st
  | some f =>
    if f.closed then { st with current := none }
    else { st with files := st.files ++ [(f.name, f.content)], current := none }

/-- The `if current_file: current_file.close()` step of the terminal-marker
branch: the variable keeps referencing the (now closed) file. -/
def closeKeep (st : MState) : MState :=
  match st.current with
  | none => st
  | some f =>
    if f.closed then st
    else { st with files := st.files ++ [(f.name, f.content)],
                   current := some { f with closed := true } }

/-- `CHUNK_SIZE = 8192`. -/
def CHUNK_SIZE : Nat := 8192

/-- One run of the inner `while buffer:` loop of
`Client._handle_multipart_response`, written with explicit fuel (every
iteration that loops again strictly shortens the buffer, so
`fuel = buffer.length` is always enough).  Header bytes are matched
directly; `headers.decode("utf-8")` is modelled by the ASCII check (all
streams considered in this development are ASCII). -/
def processBufferFuel (b : List Byte) : Nat → MState → Except PyErr MState
  | 0, st => .ok st
  | fuel + 1, st =>
    if st.buffer = [] then .ok st
    else if (marker b).isPrefixOf st.buffer then
      -- starting of part
      let st1 := closeCurrent st
      match findSub crlf2 st1.buffer with
      | none => .ok st1
      | some he =>
        let headers := st1.buffer.take he
        if headers.all (· ≤ 127) then
          match extractPartName headers with
          | some n =>
            processBufferFuel b fuel
              { st1 with current := some ⟨n, [], false⟩, buffer := st1.buffer.drop (he + 4) }
          | none =>
            processBufferFuel b fuel { st1 with buffer := st1.buffer.drop (he + 4) }
        else .error .unicodeDecode
    else if (terminalMarker b).isPrefixOf st.buffer then
      -- ending of all parts: print("Done") and close; dead code, because any
      -- buffer matching this also matches the start-of-part test above
      .ok { closeKeep st with done := true }
    else
      match st.current with
      | some f =>
        -- we're currently in the middle of a part
        match findSub (marker b) st.buffer with
        | some i =>
          match writeFile f (st.buffer.take i) with
          | .error e => .error e
          | .ok f' =>
            processBufferFuel b fuel { st with buffer := st.buffer.drop i, current := some f' }
        | none =>
          let safe := st.buffer.length - CHUNK_SIZE
          if 0 < safe then
            match writeFile f (st.buffer.take safe) with
            | .error e => .error e
            | .ok f' => .ok { st with buffer := st.buffer.drop safe, current := some f' }
          else .ok st
      | none => .ok st

/-- One iteration of `for chunk in response.iter_content(...)`: count the
bytes, and unless the chunk is empty append it to the buffer and run the
inner loop. -/
def feedChunk (b : List Byte) (st : MState) (c : List Byte) : Except PyErr MState :=
  let st0 : MState := { st with totBytes := st.totBytes + c.length }
  if c = [] then .ok st0
  else
    let st1 : MState := { st0 with buffer := st0.buffer ++ c }
    processBufferFuel b st1.buffer.length st1

/-- The whole chunk loop of `Client._handle_multipart_response`. -/
def runChunks (b : List Byte) (st : MState) : List (List Byte) → Except PyErr MState
  | [] => .ok st
  | c :: cs =>
    match feedChunk b st c with
    | .error e => .error e
    | .ok st' => runChunks b st' cs

/-- Decoder state at entry. -/
def initState : MState := ⟨[], none, [], false, 0⟩

/-- UTF-8 encoding of one code point. -/
def utf8Bytes (c : Char) : List Byte :=
  let n := c.toNat
  if n < 0x80 then [n]
  else if n < 0x800 then [0xC0 + n / 0x40, 0x80 + n % 0x40]
  else if n < 0x10000 then
    [0xE0 + n / 0x1000, 0x80 + (n / 0x40) % 0x40, 0x80 + n % 0x40]
  else
    [0xF0 + n / 0x40000, 0x80 + (n / 0x1000) % 0x40, 0x80 + (n / 0x40) % 0x40, 0x80 + n % 0x40]

/-- Bytes of a string under UTF-8 (`str.encode("utf-8")`). -/
def strBytes (s : String) : List Byte := (s.data.map utf8Bytes).flatten

/-- The characters of the literal `boundary=`. -/
def boundaryKey : List Char := ['b', 'o', 'u', 'n', 'd', 'a', 'r', 'y', '=']

/-- Model of `re.search(r'boundary=(.*)', content_type)` followed by
`.group(1).encode("utf-8")`: everything after the first `boundary=` up to
the end of the line.  The captured group may be empty. -/
def boundaryOf (ct : String) : Option (List Byte) :=
  match findSub boundaryKey ct.data with
  | none => none
  | some i => some (strBytes (String.mk ((ct.data.drop (i + 9)).takeWhile (fun c => c ≠ '\n'))))

/-- `Client._handle_multipart_response`: extract the boundary from the
Content-Type header (raising `ValueError` when absent, before any chunk is
read), then consume the chunk stream. -/
def handleMultipartResponse (ct : String) (chunks : List (List Byte)) : Except PyErr MState :=
  match boundaryOf ct with
  | none => .error .noBoundary
  | some b => runChunks b initState chunks

/-- The files present on disk after a decoder run: files closed so far plus
the still-open one (a file exists on disk from the moment `open` is
called). -/
def outputsOf (st : MState) : List (List Byte × List Byte) :=
  st.files ++
    (match st.current with
     | some f => if f.closed then [] else [(f.name, f.content)]
     | none => [])

/-! ## Single-file handler -/

/-- Characters of the literal `filename=`. -/
def filenameKey : List Char := ['f', 'i', 'l', 'e', 'n', 'a', 'm', 'e', '=']

/-- One attempted match of `filename="?([^"]+)"?` anchored at the head of
`s`: optional opening quote, a non-empty greedy run of non-quote
characters, optional closing quote. -/
def matchFilenameAt (s : List Char) : Option (List Char) :=
  if filenameKey.isPrefixOf s then
    match s.drop 9 with
    | [] => none
    | '"' :: r =>
      let g := r.takeWhile (fun c => c ≠ '"')
      if g = [] then none else some g
    | c :: r => some ((c :: r).takeWhile (fun x => x ≠ '"'))
  else none

/-- Model of `re.search(r'filename="?([^"]+)"?', cd)`. -/
def searchFilename : List Char → Option (List Char)
  | [] => none
  | a :: t =>
    match matchFilenameAt (a :: t) with
    | some g => some g
    | none => searchFilename t

/-- `Client._handle_single_file_response`: extract the filename hint from
the Content-Disposition header (raising `ValueError` when the header or the
hint is missing) and write every non-empty chunk in arrival order.  Returns
the file name and its final content. -/
def handleSingleFileResponse (cd : Option String) (chunks : List (List Byte)) :
    Except PyErr (String × List Byte) :=
  match cd with
  | none => .error .noContentDisposition
  | some c =>
    match searchFilename c.data with
    | none => .error .noFilename
    | some fn =>
      .ok (String.mk fn, chunks.foldl (fun acc ck => if ck = [] then acc else acc ++ ck) [])

/-! ## Speed tracker -/

/-- `Client._calculate_speed`: current and average speed, both `0` when
`elapsed_time == 0`.  Python floats are modelled as rationals; every value
appearing in the claims is exactly representable. -/
def calculateSpeed (bytesReceived totalBytes : Nat) (elapsedTime : ℚ) : ℚ × ℚ :=
  if elapsedTime = 0 then (0, 0)
  else (bytesReceived / elapsedTime, totalBytes / elapsedTime)

/-- Decimal digits of a natural number (fuelled so that concrete values
reduce in the kernel). -/
def natDigits : Nat → Nat → List Char
  | 0, _ => []
  | fuel + 1, n =>
    if n < 10 then [Char.ofNat (48 + n)]
    else natDigits fuel (n / 10) ++ [Char.ofNat (48 + n % 10)]

/-- Render a natural number in decimal. -/
def natStr (n : Nat) : String := String.mk (natDigits (n + 1) n)

/-- Model of `f"{x:.2f}"` for the nonnegative values produced here: round to
two decimals (the claims' values are exact, so the tie-breaking mode is
irrelevant) and print a two-digit fraction. -/
def fmt2 (q : ℚ) : String :=
  let n : Int := ⌊q * 100 + 1 / 2⌋
  natStr (n / 100).toNat ++ "." ++
    (if (n % 100).toNat < 10 then "0" ++ natStr (n % 100).toNat else natStr (n % 100).toNat)

/-- The unit ladder of `Client._format_speed` (`TB/s` is the fallback after
the loop exhausts `['B/s', 'KB/s', 'MB/s', 'GB/s']`). -/
def formatSpeedGo : List String → ℚ → String
  | [], speed => fmt2 speed ++ " TB/s"
  | u :: us, speed =>
    if speed < 1024 then fmt2 speed ++ " " ++ u
    else formatSpeedGo us (speed / 1024)

/-- `Client._format_speed`. -/
def formatSpeed (speed : ℚ) : String :=
  formatSpeedGo ["B/s", "KB/s", "MB/s", "GB/s"] speed

/-! ## Download orchestrator -/

/-- The response fields `Client.download` inspects.  `statusError` models
`raise_for_status` raising; `transportError` models a
`ChunkedEncodingError` surfacing from the transfer. -/
structure PyResponse where
  statusError : Bool
  contentType : String
  contentDisposition : Option String
  chunks : List (List Byte)
  transportError : Bool

/-- What a Python call observably does: return normally or propagate an
exception to its caller. -/
inductive PyOutcome where
  | returned (msg : Option String)
  | raised (e : PyErr)
deriving DecidableEq, Repr

/-- A human-readable message per error kind (the `print` lines of the
`except` clauses). -/
def errorMessage : PyErr → String
  | .noBoundary => "Error: No boundary found in Content-Type header"
  | .unicodeDecode => "Error: invalid start byte"
  | .closedFileWrite => "Error: I/O operation on closed file."
  | .noContentDisposition => "Error: No Content-Disposition header"
  | .noFilename => "Error: No filename in Content-Disposition header"
  | .httpStatus => "Error: HTTP status error"
  | .transport => "Error during chunked transfer"

/-- The body of the `try:` block in `Client.download`: raise for status,
dispatch on `'multipart' in content_type`. -/
def downloadInner (r : PyResponse) : Except PyErr Unit :=
  if r.statusError then .error .httpStatus
  else if r.transportError then .error .transport
  else if (findSub "multipart".data r.contentType.data).isSome then
    (handleMultipartResponse r.contentType r.chunks).map (fun _ => ())
  else
    (handleSingleFileResponse r.contentDisposition r.chunks).map (fun _ => ())

/-- `Client.download`: every exception from the body is caught by the two
`except` clauses, a message is printed, and the method returns normally. -/
def download (r : PyResponse) : PyOutcome :=
  match downloadInner r with
  | .ok _ => .returned none
  | .error e => .returned (some (errorMessage e))

/-! ## Well-formed multipart streams (spec side, for the refinement claim) -/

/-- The marker-and-header region of one part, up to but excluding the
`\r\n\r\n` terminator: `\r\n--<b>\r\nX-Part-Name: "<n>"`. -/
def headerCore (b n : List Byte) : List Byte :=
  marker b ++ [13, 10] ++ xpnKey ++ [32, 34] ++ n ++ [34]

/-- A part's full header block `\r\n--<b>\r\nX-Part-Name: "<n>"\r\n\r\n`. -/
def headerBlock (b n : List Byte) : List Byte := headerCore b n ++ crlf2

/-- One encoded part: header block followed by payload. -/
def encodePart (b : List Byte) (pr : List Byte × List Byte) : List Byte :=
  headerBlock b pr.1 ++ pr.2

/-- A complete well-formed multipart stream. -/
def encodeStream (b : List Byte) (parts : List (List Byte × List Byte)) : List Byte :=
  (parts.map (encodePart b)).flatten ++ terminalMarker b

/-- `pat` occurs in `s` at position `j`. -/
def occursAt {α : Type} (pat s : List α) (j : Nat) : Prop := pat <+: s.drop j

/-- `pat` occurs nowhere in `s`. -/
def noOcc {α : Type} (pat s : List α) : Prop := ∀ j, ¬ occursAt pat s j

/-- RFC-style boundary sanity: non-empty, at most 70 bytes, ASCII, free of
CR, LF and double-quote. -/
def goodBoundary (b : List Byte) : Prop :=
  b ≠ [] ∧ b.length ≤ 70 ∧ ∀ c ∈ b, c ≠ 13 ∧ c ≠ 10 ∧ c ≠ 34 ∧ c ≤ 127

/-- A declared part name the header grammar can carry: non-empty ASCII
without CR, LF or double-quote. -/
def goodName (n : List Byte) : Prop :=
  n ≠ [] ∧ ∀ c ∈ n, c ≠ 13 ∧ c ≠ 10 ∧ c ≠ 34 ∧ c ≤ 127

/-- Well-formed multipart input: sane boundary, sane part names, and no
payload contains the boundary marker (the defining property of a multipart
boundary). -/
def wellFormed (b : List Byte) (parts : List (List Byte × List Byte)) : Prop :=
  goodBoundary b ∧ ∀ pr ∈ parts, goodName pr.1 ∧ noOcc (marker b) pr.2

/-- Executable occurrence check, used to discharge `noOcc` hypotheses on
concrete data. -/
def noOccCheck {α : Type} [DecidableEq α] (pat s : List α) : Bool :=
  (List.range (s.length + 1)).all (fun j => ! pat.isPrefixOf (s.drop j))

/-- The `k`-th part (with a default out of range). -/
def partAt (parts : List (List Byte × List Byte)) (k : Nat) : List Byte × List Byte :=
  parts.getD k ([], [])

/-- Encoded bytes of the first `k` parts. -/
def encUpTo (b : List Byte) (parts : List (List Byte × List Byte)) (k : Nat) : List Byte :=
  ((parts.take k).map (encodePart b)).flatten

/-- Remainder of the encoded stream from the start of part `k`. -/
def restStream (b : List Byte) (parts : List (List Byte × List Byte)) (k : Nat) : List Byte :=
  ((parts.drop k).map (encodePart b)).flatten ++ terminalMarker b

/-- Simulation invariant, phase "between parts": the first `k` parts are
fully written and closed, no file is open, and the consumed bytes are
exactly the first `k` encoded parts. -/
def GoodA (b : List Byte) (parts : List (List Byte × List Byte)) (st : MState)
    (fed : List Byte) (k : Nat) : Prop :=
  k ≤ parts.length ∧ st.files = parts.take k ∧ st.current = none ∧
  fed = encUpTo b parts k ++ st.buffer

/-- Simulation invariant, phase "inside part `k`": the first `k` parts are
closed, part `k` is open with `w` payload bytes already flushed. -/
def GoodB (b : List Byte) (parts : List (List Byte × List Byte)) (st : MState)
    (fed : List Byte) (k : Nat) (w : List Byte) : Prop :=
  k < parts.length ∧ st.files = parts.take k ∧
  st.current = some ⟨(partAt parts k).1, w, false⟩ ∧
  w <+: (partAt parts k).2 ∧
  fed = encUpTo b parts k ++ headerBlock b (partAt parts k).1 ++ w ++ st.buffer

/-- The full simulation invariant. -/
def Good (b : List Byte) (parts : List (List Byte × List Byte)) (st : MState)
    (fed : List Byte) : Prop :=
  (∃ k, GoodA b parts st fed k) ∨ (∃ k w, GoodB b parts st fed k w)

/-- The conditions under which the inner `while` loop stops to wait for the
next chunk (one disjunct per `break` site that can actually run). -/
def StableState (b : List Byte) (st : MState) : Prop :=
  st.buffer = [] ∨
  ((marker b).isPrefixOf st.buffer = true ∧ findSub crlf2 st.buffer = none ∧ st.current = none) ∨
  ((∃ f, st.current = some f) ∧ findSub (marker b) st.buffer = none ∧
    st.buffer.length ≤ CHUNK_SIZE) ∨
  (st.current = none ∧ ¬ (marker b).isPrefixOf st.buffer = true)

deriving instance DecidableEq for Except

/-! ## Basic lemmas: occurrences and `findSub` -/

theorem occursAt_zero {α : Type} (pat s : List α) : occursAt pat s 0 ↔ pat <+: s := by
  simp [occursAt]

theorem occursAt_cons {α : Type} (pat : List α) (a : α) (t : List α) (j : Nat) :
    occursAt pat (a :: t) (j + 1) ↔ occursAt pat t j := by
  simp [occursAt]

theorem findSub_some {α : Type} [DecidableEq α] {pat : List α} :
    ∀ {s : List α} {i : Nat}, findSub pat s = some i → occursAt pat s i := by
  intro s
  induction s with
  | nil =>
    intro i h
    simp only [findSub] at h
    split at h
    · cases h
      rw [occursAt_zero, ← List.isPrefixOf_iff_prefix]
      assumption
    · cases h
  | cons a t ih =>
    intro i h
    simp only [findSub] at h
    split at h
    · cases h
      rw [occursAt_zero, ← List.isPrefixOf_iff_prefix]
      assumption
    · rcases Option.map_eq_some'.mp h with ⟨i', hi', rfl⟩
      rw [occursAt_cons]
      exact ih hi'

theorem findSub_min {α : Type} [DecidableEq α] {pat : List α} :
    ∀ {s : List α} {i : Nat}, findSub pat s = some i → ∀ j, j < i → ¬ occursAt pat s j := by
  intro s
  induction s with
  | nil =>
    intro i h j hj
    simp only [findSub] at h
    split at h
    · cases h; omega
    · cases h
  | cons a t ih =>
    intro i h j hj
    simp only [findSub] at h
    split at h
    · cases h; omega
    · rcases Option.map_eq_some'.mp h with ⟨i', hi', rfl⟩
      match j with
      | 0 =>
        rw [occursAt_zero, ← List.isPrefixOf_iff_prefix]
        simpa using ‹¬ pat.isPrefixOf (a :: t) = true›
      | j + 1 =>
        rw [occursAt_cons]
        exact ih hi' j (by omega)

theorem findSub_none_noOcc {α : Type} [DecidableEq α] {pat : List α} :
    ∀ {s : List α}, findSub pat s = none → noOcc pat s := by
  intro s
  induction s with
  | nil =>
    intro h j hocc
    simp only [findSub] at h
    split at h
    · cases h
    · have : pat <+: [] := by
        have : ([] : List α).drop j = [] := by simp
        rw [occursAt, this] at hocc
        exact hocc
      rw [← List.isPrefixOf_iff_prefix] at this
      simp_all
  | cons a t ih =>
    intro h j hocc
    simp only [findSub] at h
    split at h
    · cases h
    · match j with
      | 0 =>
        rw [occursAt_zero, ← List.isPrefixOf_iff_prefix] at hocc
        simp_all
      | j + 1 =>
        rw [occursAt_cons] at hocc
        exact ih (by simpa using h) j hocc

theorem findSub_complete {α : Type} [DecidableEq α] {pat : List α} :
    ∀ {s : List α} {j : Nat}, occursAt pat s j → ∃ i, findSub pat s = some i ∧ i ≤ j := by
  intro s
  induction s with
  | nil =>
    intro j hocc
    have hp : pat <+: [] := by
      have h0 : ([] : List α).drop j = [] := by simp
      rw [occursAt, h0] at hocc
      exact hocc
    rw [← List.isPrefixOf_iff_prefix] at hp
    exact ⟨0, by simp [findSub, hp], Nat.zero_le _⟩
  | cons a t ih =>
    intro j hocc
    by_cases hp : pat.isPrefixOf (a :: t) = true
    · exact ⟨0, by simp [findSub, hp], Nat.zero_le _⟩
    · match j with
      | 0 =>
        rw [occursAt_zero, ← List.isPrefixOf_iff_prefix] at hocc
        exact absurd hocc hp
      | j + 1 =>
        rw [occursAt_cons] at hocc
        rcases ih hocc with ⟨i, hi, hle⟩
        exact ⟨i + 1, by simp [findSub, hp, hi], by omega⟩

theorem findSub_zero_iff {α : Type} [DecidableEq α] {pat s : List α} :
    findSub pat s = some 0 ↔ pat <+: s := by
  constructor
  · intro h
    rw [← occursAt_zero]
    exact findSub_some h
  · intro h
    rcases findSub_complete ((occursAt_zero pat s).mpr h) with ⟨i, hi, hle⟩
    simpa [Nat.le_zero.mp hle] using hi

theorem noOcc_of_check {α : Type} [DecidableEq α] {pat s : List α}
    (h : noOccCheck pat s = true) : noOcc pat s := by
  intro j hocc
  rw [noOccCheck, List.all_eq_true] at h
  rcases le_or_lt j s.length with hj | hj
  · have hfalse := h j (List.mem_range.mpr (by omega))
    have htrue : pat.isPrefixOf (s.drop j) = true := by
      rw [ List.isPrefixOf_iff_prefix]; exact hocc
    simp_all
  · have hd : s.drop j = [] := List.drop_eq_nil_of_le (by omega)
    have hocc' : pat <+: s.drop s.length := by
      have : pat <+: ([] : List α) := hd ▸ hocc
      simpa [List.drop_length] using this
    have hfalse := h s.length (List.mem_range.mpr (by omega))
    have htrue : pat.isPrefixOf (s.drop s.length) = true := by
      rw [ List.isPrefixOf_iff_prefix]; exact hocc'
    simp_all

/-! ## Prefix and append utilities -/

theorem prefix_drop_mono {α : Type} {s t : List α} (n : Nat) (h : s <+: t)
    (hn : n ≤ s.length) : s.drop n <+: t.drop n := by
  obtain ⟨r, rfl⟩ := h
  rw [List.drop_append_of_le_length hn]
  exact ⟨r, rfl⟩

theorem prefix_take_eq {α : Type} {s t : List α} (n : Nat) (h : s <+: t)
    (hn : n ≤ s.length) : t.take n = s.take n := by
  obtain ⟨r, rfl⟩ := h
  rw [List.take_append_of_le_length hn]

theorem prefix_cancel_left {α : Type} (l : List α) {a c : List α} :
    l ++ a <+: l ++ c ↔ a <+: c := by
  constructor
  · rintro ⟨r, hr⟩
    rw [List.append_assoc] at hr
    exact ⟨r, List.append_cancel_left hr⟩
  · rintro ⟨r, rfl⟩
    exact ⟨r, by rw [List.append_assoc]⟩

theorem occursAt_bound {α : Type} {pat s : List α} {j : Nat} (hp : pat ≠ [])
    (h : occursAt pat s j) : j + pat.length ≤ s.length := by
  have hlen : pat.length ≤ (s.drop j).length := h.length_le
  rw [List.length_drop] at hlen
  have : 0 < pat.length := List.length_pos.mpr hp
  omega

theorem occursAt_mono {α : Type} {pat s t : List α} {j : Nat} (hst : s <+: t)
    (h : occursAt pat s j) : occursAt pat t j := by
  rcases le_or_lt j s.length with hj | hj
  · exact h.trans (prefix_drop_mono j hst hj)
  · have hd : s.drop j = [] := List.drop_eq_nil_of_le (by omega)
    have hnil : pat <+: ([] : List α) := hd ▸ h
    have hpat : pat = [] := List.prefix_nil.mp hnil
    subst hpat
    exact List.nil_prefix

theorem occursAt_anti {α : Type} {pat s t : List α} {j : Nat} (hst : s <+: t)
    (hlen : j + pat.length ≤ s.length) (h : occursAt pat t j) : occursAt pat s j :=
  List.prefix_of_prefix_length_le h (prefix_drop_mono j hst (by omega))
    (by rw [List.length_drop]; omega)

theorem occursAt_append_right {α : Type} {pat ys : List α} (xs : List α) {j : Nat}
    (h : occursAt pat ys j) : occursAt pat (xs ++ ys) (xs.length + j) := by
  show pat <+: (xs ++ ys).drop (xs.length + j)
  rw [List.drop_append]
  exact h

theorem occursAt_shift {α : Type} {pat w : List α} {j j' : Nat}
    (h : occursAt pat (w.drop j) j') : occursAt pat w (j + j') := by
  show pat <+: w.drop (j + j')
  rw [show w.drop (j + j') = (w.drop j).drop j' by rw [List.drop_drop, Nat.add_comm]]
  exact h

theorem occursAt_append_elim {α : Type} {pat xs ys : List α} {j : Nat}
    (h : occursAt pat (xs ++ ys) j) :
    (j + pat.length ≤ xs.length ∧ occursAt pat xs j) ∨
    (xs.length ≤ j ∧ occursAt pat ys (j - xs.length)) ∨
    (j < xs.length ∧ xs.length < j + pat.length ∧
      pat.take (xs.length - j) = xs.drop j ∧ pat.drop (xs.length - j) <+: ys) := by
  rcases le_or_lt xs.length j with hj | hj
  · refine Or.inr (Or.inl ⟨hj, ?_⟩)
    show pat <+: ys.drop (j - xs.length)
    have h2 : (xs ++ ys).drop j = ys.drop (j - xs.length) := by
      conv_lhs => rw [show j = xs.length + (j - xs.length) by omega]
      rw [List.drop_append]
    rw [← h2]
    exact h
  · rcases le_or_lt (j + pat.length) xs.length with hlen | hlen
    · exact Or.inl ⟨hlen, occursAt_anti (List.prefix_append xs ys) hlen h⟩
    · refine Or.inr (Or.inr ⟨hj, hlen, ?_, ?_⟩)
      all_goals
        have hd : (xs ++ ys).drop j = xs.drop j ++ ys :=
          List.drop_append_of_le_length (by omega)
      all_goals
        have hpre : pat <+: xs.drop j ++ ys := hd ▸ h
      all_goals
        obtain ⟨r, hr⟩ := hpre
      all_goals
        have hlxs : (xs.drop j).length = xs.length - j := List.length_drop ..
      · have h3 := congrArg (List.take (xs.length - j)) hr
        rw [List.take_append_of_le_length (by omega)] at h3
        have h4 : (List.drop j xs ++ ys).take (xs.length - j) = List.drop j xs := by
          rw [← hlxs, List.take_left]
        rw [h4] at h3
        exact h3
      · have h5 := congrArg (List.drop (xs.length - j)) hr
        rw [List.drop_append_of_le_length (by omega)] at h5
        have h6 : (List.drop j xs ++ ys).drop (xs.length - j) = ys := by
          rw [← hlxs, List.drop_left]
        rw [h6] at h5
        exact ⟨r, h5⟩

theorem occursAt_getElem {α : Type} {pat s : List α} {j : Nat} (h : occursAt pat s j)
    {k : Nat} (hk : k < pat.length) : s.get? (j + k) = pat.get? k := by
  obtain ⟨r, hr⟩ := h
  have h1 : s.get? (j + k) = (s.drop j).get? k := by
    rw [List.get?_drop]
  rw [h1, ← hr, List.get?_append (by omega)]

theorem occursAt_sub {α : Type} {pat w p : List α} {j : Nat} (hw : w = p.drop (jw : Nat))
    (h : occursAt pat w j) : occursAt pat p (jw + j) := occursAt_shift (hw ▸ h)

/-- If `pat` occurs at `pre.length` in `pre ++ post` and nowhere earlier,
then `findSub` on any prefix `buffer` of `pre ++ post` either fails because
the buffer is too short, or returns exactly `pre.length`. -/
theorem findSub_first {α : Type} [DecidableEq α] {pat pre post buffer : List α}
    (hpat : pat ≠ [])
    (hnone : ∀ j, j < pre.length → ¬ occursAt pat (pre ++ post) j)
    (hocc : pat <+: post)
    (hbuf : buffer <+: pre ++ post) :
    (findSub pat buffer = none → buffer.length < pre.length + pat.length) ∧
    (∀ i, findSub pat buffer = some i →
      i = pre.length ∧ pre.length + pat.length ≤ buffer.length) := by
  have hfull : occursAt pat (pre ++ post) pre.length := by
    have := occursAt_append_right pre ((occursAt_zero pat post).mpr hocc)
    simpa using this
  constructor
  · intro hnonef
    by_contra hc
    push_neg at hc
    have hob : occursAt pat buffer pre.length := occursAt_anti hbuf (by omega) hfull
    rcases findSub_complete hob with ⟨i, hi, _⟩
    rw [hnonef] at hi
    cases hi
  · intro i hi
    have hoccb : occursAt pat buffer i := findSub_some hi
    have hbound : i + pat.length ≤ buffer.length := occursAt_bound hpat hoccb
    have hoccf : occursAt pat (pre ++ post) i := occursAt_mono hbuf hoccb
    have hige : pre.length ≤ i := by
      by_contra hc
      exact hnone i (by omega) hoccf
    have hob : occursAt pat buffer pre.length := occursAt_anti hbuf (by omega) hfull
    have hile : i ≤ pre.length := by
      by_contra hc
      exact findSub_min hi pre.length (by omega) hob
    exact ⟨by omega, by omega⟩

/-- If no occurrence exists in a superlist, `findSub` on a prefix fails. -/
theorem findSub_none_of_noOcc {α : Type} [DecidableEq α] {pat s buffer : List α}
    (h : noOcc pat s) (hbuf : buffer <+: s) : findSub pat buffer = none := by
  cases hfs : findSub pat buffer with
  | none => rfl
  | some i => exact absurd (occursAt_mono hbuf (findSub_some hfs)) (h i)

/-! ## No-occurrence combinators -/

theorem noOcc_append {α : Type} {pat xs ys : List α} (hx : noOcc pat xs) (hy : noOcc pat ys)
    (hstr : ∀ d, 0 < d → d < pat.length → d ≤ xs.length →
      pat.take d = xs.drop (xs.length - d) → ¬ pat.drop d <+: ys) :
    noOcc pat (xs ++ ys) := by
  intro j hocc
  rcases occursAt_append_elim hocc with ⟨_, h⟩ | ⟨_, h⟩ | ⟨hj, hlen, htake, hdrop⟩
  · exact hx j h
  · exact hy _ h
  · exact hstr (xs.length - j) (by omega) (by omega) (by omega)
      (by rw [htake, show xs.length - (xs.length - j) = j by omega]) hdrop

theorem noOcc_nil {α : Type} {pat : List α} (h : pat ≠ []) : noOcc pat ([] : List α) := by
  intro j hocc
  have : pat <+: ([] : List α) := by
    have hd : ([] : List α).drop j = [] := by simp
    exact hd ▸ hocc
  exact h (List.prefix_nil.mp this)

/-- `crlf2` cannot occur in a byte list containing no CR. -/
theorem noOcc_crlf2_of_no_cr {s : List Byte} (h : 13 ∉ s) : noOcc crlf2 s := by
  intro j hocc
  have hb := @occursAt_getElem _ _ _ _ hocc 0 (by simp [crlf2])
  rw [Nat.add_zero] at hb
  have : s.get? j = some 13 := by rw [hb]; rfl
  exact h (List.get?_mem this)

/-- The last element of a list a nonempty suffix was taken from. -/
theorem getLast?_of_drop {α : Type} {xs u : List α} {k : Nat} (h : xs.drop k = u)
    (hu : u ≠ []) : xs.getLast? = u.getLast? := by
  conv_lhs => rw [← List.take_append_drop k xs, h]
  exact List.getLast?_append_of_ne_nil _ hu

/-- Straddle impossibility when the left list does not end in CR or LF:
no split of `crlf2` can begin at the tail of `xs`. -/
theorem crlf2_no_straddle {xs ys : List Byte}
    (hlast : ∀ c, xs.getLast? = some c → c ≠ 13 ∧ c ≠ 10) :
    ∀ d, 0 < d → d < crlf2.length → d ≤ xs.length →
      crlf2.take d = xs.drop (xs.length - d) → ¬ crlf2.drop d <+: ys := by
  intro d hd0 hd4 hdlen htake _
  have hlen : (xs.drop (xs.length - d)).length = d := by
    rw [List.length_drop]; omega
  have hne : xs.drop (xs.length - d) ≠ [] := by
    intro hcon; rw [hcon] at hlen; simp at hlen; omega
  have hxl : xs.getLast? = (crlf2.take d).getLast? := by
    rw [htake] at *
    exact getLast?_of_drop rfl hne
  have hd4' : d < 4 := by simpa [crlf2] using hd4
  interval_cases d
  · rw [show (crlf2.take 1).getLast? = some 13 from rfl] at hxl
    exact (hlast 13 hxl).1 rfl
  · rw [show (crlf2.take 2).getLast? = some 10 from rfl] at hxl
    exact (hlast 10 hxl).2 rfl
  · rw [show (crlf2.take 3).getLast? = some 13 from rfl] at hxl
    exact (hlast 13 hxl).1 rfl

/-- Combined combinator for `crlf2`. -/
theorem noOcc_crlf2_append {xs ys : List Byte} (hx : noOcc crlf2 xs) (hy : noOcc crlf2 ys)
    (hlast : ∀ c, xs.getLast? = some c → c ≠ 13 ∧ c ≠ 10) : noOcc crlf2 (xs ++ ys) :=
  noOcc_append hx hy (crlf2_no_straddle hlast)

/-! ## Marker and header-block structure -/

theorem noOcc_drop {α : Type} {pat p : List α} (h : noOcc pat p) (j : Nat) :
    noOcc pat (p.drop j) := fun j' hocc => h (j + j') (occursAt_shift hocc)

theorem marker_ne_nil (b : List Byte) : marker b ≠ [] := by simp [marker]

theorem marker_get_ne_cr {b : List Byte} (hb : 13 ∉ b) {k : Nat} (hk : 1 ≤ k) :
    (marker b).get? k ≠ some 13 := by
  match k, hk with
  | 1, _ => intro hc; simp [marker] at hc
  | 2, _ => intro hc; simp [marker] at hc
  | 3, _ => intro hc; simp [marker] at hc
  | (k + 4), _ =>
    intro hc
    have hkb : (marker b).get? (k + 4) = b.get? k := by
      show ((13 : Byte) :: 10 :: 45 :: 45 :: b).get? (k + 4) = b.get? k
      rfl
    rw [hkb] at hc
    exact hb (List.get?_mem hc)

/-- In `q ++ R` with `q` marker-free and `R` starting with the marker, no
marker occurrence starts before `q.length`. -/
theorem marker_first {b q R : List Byte} (hb : 13 ∉ b)
    (hq : noOcc (marker b) q) (hR : marker b <+: R) :
    ∀ j, j < q.length → ¬ occursAt (marker b) (q ++ R) j := by
  intro j hj hocc
  rcases occursAt_append_elim hocc with ⟨_, h⟩ | ⟨hl, _⟩ | ⟨h1, h2, htake, hdrop⟩
  · exact hq j h
  · omega
  · have hd0 : 0 < q.length - j := by omega
    have hdm : q.length - j < (marker b).length := by omega
    have hlen : ((marker b).drop (q.length - j)).length = (marker b).length - (q.length - j) :=
      List.length_drop ..
    have hR0 : R.get? 0 = some 13 := by
      obtain ⟨r', hr'⟩ := hR
      rw [← hr']
      show ((13 : Byte) :: _).get? 0 = some 13
      rfl
    have hhead : ((marker b).drop (q.length - j)).get? 0 = R.get? 0 := by
      obtain ⟨r, hr⟩ := hdrop
      rw [← hr, List.get?_append (by rw [hlen]; omega)]
    have : (marker b).get? (q.length - j) = some 13 := by
      have hd : ((marker b).drop (q.length - j)).get? 0 = (marker b).get? (q.length - j) := by
        rw [List.get?_drop, Nat.add_zero]
      rw [← hd, hhead, hR0]
    exact marker_get_ne_cr hb (by omega) this

/-- `findSub` of the marker on a buffer that is a prefix of
`payload-remainder ++ rest-of-stream`. -/
theorem findSub_marker_first {b q R buffer : List Byte} (hb : 13 ∉ b)
    (hq : noOcc (marker b) q) (hR : marker b <+: R) (hbuf : buffer <+: q ++ R) :
    (findSub (marker b) buffer = none → buffer.length < q.length + (marker b).length) ∧
    (∀ i, findSub (marker b) buffer = some i →
      i = q.length ∧ q.length + (marker b).length ≤ buffer.length) :=
  findSub_first (marker_ne_nil b) (marker_first hb hq hR) hR hbuf

theorem goodBoundary_no_cr {b : List Byte} (hb : goodBoundary b) : 13 ∉ b :=
  fun h => (hb.2.2 13 h).1 rfl

theorem goodName_no_cr {n : List Byte} (hn : goodName n) : 13 ∉ n :=
  fun h => (hn.2 13 h).1 rfl

theorem noOcc_crlf2_marker {b : List Byte} (hb : goodBoundary b) :
    noOcc crlf2 (marker b) := by
  show noOcc crlf2 ([13, 10, 45, 45] ++ b)
  refine noOcc_crlf2_append (noOcc_of_check (by decide))
    (noOcc_crlf2_of_no_cr (goodBoundary_no_cr hb)) ?_
  intro c hc
  have hc45 : c = 45 := by
    have h45 : ([13, 10, 45, 45] : List Byte).getLast? = some 45 := rfl
    rw [h45] at hc
    exact (Option.some_inj.mp hc).symm
  subst hc45
  exact ⟨by decide, by decide⟩

theorem marker_getLast {b : List Byte} (hb : goodBoundary b) :
    ∀ c, (marker b).getLast? = some c → c ≠ 13 ∧ c ≠ 10 := by
  intro c hc
  have hgl : (marker b).getLast? = b.getLast? := by
    show ([13, 10, 45, 45] ++ b).getLast? = b.getLast?
    exact List.getLast?_append_of_ne_nil _ hb.1
  rw [hgl] at hc
  have hmem : c ∈ b := List.mem_of_mem_getLast? (by rw [hc]; rfl)
  exact ⟨(hb.2.2 c hmem).1, (hb.2.2 c hmem).2.1⟩

theorem headerCore_assoc (b n : List Byte) :
    headerCore b n = marker b ++ ([13, 10] ++ (xpnKey ++ ([32, 34] ++ (n ++ [34])))) := by
  simp [headerCore, List.append_assoc]

theorem noOcc_crlf2_headerCore {b n : List Byte} (hb : goodBoundary b) (hn : goodName n) :
    noOcc crlf2 (headerCore b n) := by
  rw [headerCore_assoc]
  refine noOcc_crlf2_append (noOcc_crlf2_marker hb) ?_ (marker_getLast hb)
  have hform : ([13, 10] ++ (xpnKey ++ ([32, 34] ++ (n ++ [34]))) : List Byte) =
      [13, 10, 88] ++ ([45, 80, 97, 114, 116, 45, 78, 97, 109, 101, 58] ++
        ([32, 34] ++ (n ++ [34]))) := by
    simp [xpnKey]
  rw [hform]
  refine noOcc_crlf2_append (noOcc_of_check (by decide)) ?_ ?_
  · refine noOcc_crlf2_of_no_cr ?_
    intro hmem
    rcases List.mem_append.mp hmem with h | h
    · exact absurd h (by decide)
    rcases List.mem_append.mp h with h | h
    · exact absurd h (by decide)
    rcases List.mem_append.mp h with h | h
    · exact goodName_no_cr hn h
    · exact absurd h (by decide)
  · intro c hc
    have hc88 : c = 88 := by
      have h88 : ([13, 10, 88] : List Byte).getLast? = some 88 := rfl
      rw [h88] at hc
      exact (Option.some_inj.mp hc).symm
    subst hc88
    exact ⟨by decide, by decide⟩

theorem headerCore_getLast {b n : List Byte} :
    ∀ c, (headerCore b n).getLast? = some c → c ≠ 13 ∧ c ≠ 10 := by
  intro c hc
  have hform : headerCore b n =
      (marker b ++ ([13, 10] ++ (xpnKey ++ ([32, 34] ++ n)))) ++ [34] := by
    simp [headerCore, List.append_assoc]
  rw [hform, List.getLast?_append_of_ne_nil _ (by simp)] at hc
  have hc34 : c = 34 := by
    have h34 : ([34] : List Byte).getLast? = some 34 := rfl
    rw [h34] at hc
    exact (Option.some_inj.mp hc).symm
  subst hc34
  exact ⟨by decide, by decide⟩

theorem crlf2_first_in_header {b n tail : List Byte} (hb : goodBoundary b) (hn : goodName n) :
    ∀ j, j < (headerCore b n).length →
      ¬ occursAt crlf2 (headerCore b n ++ (crlf2 ++ tail)) j := by
  intro j hj hocc
  rcases occursAt_append_elim hocc with ⟨_, h⟩ | ⟨hl, _⟩ | ⟨h1, h2, htake, hdrop⟩
  · exact noOcc_crlf2_headerCore hb hn j h
  · omega
  · refine crlf2_no_straddle (@headerCore_getLast b n)
      ((headerCore b n).length - j) (by omega) (by omega) (by omega) ?_ hdrop
    rw [htake, show (headerCore b n).length - ((headerCore b n).length - j) = j by omega]

theorem findSub_crlf2_header {b n tail buffer : List Byte} (hb : goodBoundary b)
    (hn : goodName n) (hbuf : buffer <+: headerBlock b n ++ tail) :
    (findSub crlf2 buffer = none → buffer.length < (headerBlock b n).length) ∧
    (∀ he, findSub crlf2 buffer = some he →
      he = (headerCore b n).length ∧ (headerBlock b n).length ≤ buffer.length) := by
  have hsplit : headerBlock b n ++ tail = headerCore b n ++ (crlf2 ++ tail) := by
    simp [headerBlock, List.append_assoc]
  rw [hsplit] at hbuf
  have h := findSub_first (by decide) (crlf2_first_in_header hb hn)
    (List.prefix_append ..) hbuf
  have hlen : (headerBlock b n).length = (headerCore b n).length + 4 := by
    simp [headerBlock, crlf2]
  have hc4 : crlf2.length = 4 := rfl
  constructor
  · intro hnone
    have := h.1 hnone
    omega
  · intro he hhe
    have := h.2 he hhe
    omega

/-! ## Header-name extraction -/

theorem takeWhile_append_all {α : Type} {p : α → Bool} {xs : List α} (ys : List α)
    (h : ∀ c ∈ xs, p c = true) : (xs ++ ys).takeWhile p = xs ++ ys.takeWhile p := by
  induction xs with
  | nil => simp
  | cons a t ih =>
    have ha : p a = true := h a (List.mem_cons_self a t)
    have ht : ∀ c ∈ t, p c = true := fun c hc => h c (List.mem_cons_of_mem a hc)
    simp [List.takeWhile_cons, ha, ih ht]

theorem dropWhile_append_all {α : Type} {p : α → Bool} {xs : List α} (ys : List α)
    (h : ∀ c ∈ xs, p c = true) : (xs ++ ys).dropWhile p = ys.dropWhile p := by
  induction xs with
  | nil => simp
  | cons a t ih =>
    have ha : p a = true := h a (by simp)
    simp only [List.cons_append, List.dropWhile_cons, ha, if_true]
    exact ih (fun c hc => h c (by simp [hc]))

theorem matchNameAt_not_key {s : List Byte} (h : ¬ xpnKey <+: s) : matchNameAt s = none := by
  rw [matchNameAt, if_neg]
  simpa [ List.isPrefixOf_iff_prefix] using h

theorem dropWhile_guard {w z : List Byte} (hw : ∀ c ∈ w, c ≠ 34) :
    ∃ c r, (w ++ 88 :: z).dropWhile isWs = c :: r ∧ c ≠ 34 := by
  induction w with
  | nil =>
    refine ⟨88, z, ?_, by decide⟩
    simp [List.dropWhile, isWs]
  | cons a t ih =>
    by_cases ha : isWs a = true
    · simp only [List.cons_append, List.dropWhile_cons, ha, if_true]
      exact ih (fun c hc => hw c (by simp [hc]))
    · refine ⟨a, t ++ 88 :: z, ?_, hw a (by simp)⟩
      simp [List.dropWhile_cons, ha]

theorem matchNameAt_guarded {s : List Byte}
    (h : ∃ w z, s.drop 12 = w ++ 88 :: z ∧ ∀ c ∈ w, c ≠ 34) : matchNameAt s = none := by
  obtain ⟨w, z, hdrop, hw⟩ := h
  rw [matchNameAt]
  split
  · obtain ⟨c, r, hdw, hc⟩ := @dropWhile_guard w z hw
    rw [← hdrop] at hdw
    rw [hdw]
    split
    · next heq =>
      rw [List.cons_eq_cons] at heq
      exact absurd heq.1 hc
    · rfl
  · rfl

theorem xpn_no_border : ∀ d, 1 ≤ d → d ≤ 11 → xpnKey.drop d ≠ xpnKey.take (12 - d) := by decide

theorem matchNameAt_at_key {n : List Byte} (rest : List Byte) (hn : goodName n) :
    matchNameAt (xpnKey ++ ([32, 34] ++ (n ++ (34 :: rest)))) = some n := by
  rw [matchNameAt, if_pos (by rw [ List.isPrefixOf_iff_prefix]; exact List.prefix_append ..)]
  have hdrop12 : (xpnKey ++ ([32, 34] ++ (n ++ (34 :: rest)))).drop 12 =
      [32, 34] ++ (n ++ (34 :: rest)) := by
    rw [show (12 : Nat) = xpnKey.length from rfl, List.drop_left]
  rw [hdrop12]
  have hdw : (([32, 34] ++ (n ++ (34 :: rest))) : List Byte).dropWhile isWs =
      34 :: (n ++ (34 :: rest)) := by
    simp [List.dropWhile, isWs]
  rw [hdw]
  have hg : (n ++ (34 :: rest)).takeWhile (· ≠ 34) = n := by
    rw [takeWhile_append_all _ (fun c hc => by simp [(hn.2 c hc).2.2.1])]
    simp [List.takeWhile]
  have hdd : (n ++ (34 :: rest)).dropWhile (· ≠ 34) = 34 :: rest := by
    rw [dropWhile_append_all _ (fun c hc => by simp [(hn.2 c hc).2.2.1])]
    simp [List.dropWhile]
  simp only [hg, hdd]
  rw [if_neg hn.1, if_neg (by simp)]

theorem extract_scan {xs ys : List Byte}
    (h : ∀ u, u ≠ [] → u <:+ xs → matchNameAt (u ++ ys) = none) :
    extractPartName (xs ++ ys) = extractPartName ys := by
  induction xs with
  | nil => simp
  | cons a t ih =>
    have h1 : matchNameAt ((a :: t) ++ ys) = none := h (a :: t) (by simp) List.suffix_rfl
    have h2 : extractPartName ((a :: t) ++ ys) = extractPartName (t ++ ys) := by
      show extractPartName (a :: (t ++ ys)) = extractPartName (t ++ ys)
      rw [extractPartName]
      rw [show a :: (t ++ ys) = (a :: t) ++ ys from rfl, h1]
    rw [h2]
    exact ih (fun u hu hsuf => h u hu (hsuf.trans (List.suffix_cons a t)))

theorem mem_marker_crlf_ne_34 {b : List Byte} (hb : goodBoundary b) :
    ∀ c ∈ marker b ++ [13, 10], c ≠ 34 := by
  intro c hc
  rcases List.mem_append.mp hc with h | h
  · rcases List.mem_append.mp h with h2 | h2
    · fin_cases h2 <;> decide
    · exact (hb.2.2 c h2).2.2.1
  · fin_cases h <;> decide

theorem extractPartName_headerCore {b n : List Byte} (hb : goodBoundary b) (hn : goodName n) :
    extractPartName (headerCore b n) = some n := by
  have hsplit : headerCore b n =
      (marker b ++ [13, 10]) ++ (xpnKey ++ ([32, 34] ++ (n ++ (34 :: [])))) := by
    simp [headerCore, List.append_assoc]
  rw [hsplit]
  rw [extract_scan ?_]
  · have hx : (xpnKey ++ ([32, 34] ++ (n ++ (34 :: []))) : List Byte) =
        88 :: ([45, 80, 97, 114, 116, 45, 78, 97, 109, 101, 58] ++
          ([32, 34] ++ (n ++ (34 :: [])))) := by
      simp [xpnKey]
    rw [hx, extractPartName, ← hx, matchNameAt_at_key [] hn]
  · intro u hu hsuf
    rcases le_or_lt 12 u.length with hlen | hlen
    · refine matchNameAt_guarded ⟨u.drop 12,
        [45, 80, 97, 114, 116, 45, 78, 97, 109, 101, 58] ++ ([32, 34] ++ (n ++ (34 :: []))),
        ?_, ?_⟩
      · rw [List.drop_append_of_le_length hlen]
        simp [xpnKey]
      · intro c hc
        exact mem_marker_crlf_ne_34 hb c (hsuf.subset (List.mem_of_mem_drop hc))
    · by_cases hpre : xpnKey <+: u ++ (xpnKey ++ ([32, 34] ++ (n ++ (34 :: []))))
      · exfalso
        obtain ⟨r, hr⟩ := hpre
        have hx12 : xpnKey.length = 12 := rfl
        have hdropu := congrArg (List.drop u.length) hr
        rw [List.drop_append_of_le_length (by omega), List.drop_left] at hdropu
        have hpre2 : xpnKey.drop u.length <+: xpnKey ++ ([32, 34] ++ (n ++ (34 :: []))) :=
          ⟨r, hdropu⟩
        have hpre3 : xpnKey.drop u.length <+: xpnKey :=
          List.prefix_of_prefix_length_le hpre2 (List.prefix_append ..)
            (by rw [List.length_drop]; simp [xpnKey])
        have heq : xpnKey.drop u.length = xpnKey.take (12 - u.length) := by
          have := List.prefix_iff_eq_take.mp hpre3
          rw [this, List.length_drop]
          rfl
        have hne : u.length ≥ 1 := by
          rcases Nat.eq_zero_or_pos u.length with h0 | h0
          · exact absurd (List.length_eq_zero.mp h0) hu
          · omega
        exact xpn_no_border u.length hne (by omega) heq
      · exact matchNameAt_not_key hpre

theorem headerCore_ascii {b n : List Byte} (hb : goodBoundary b) (hn : goodName n) :
    (headerCore b n).all (· ≤ 127) = true := by
  rw [List.all_eq_true]
  intro c hc
  rw [headerCore_assoc] at hc
  rcases List.mem_append.mp hc with h | h
  · rcases List.mem_append.mp h with h2 | h2
    · fin_cases h2 <;> decide
    · simpa using (hb.2.2 c h2).2.2.2
  · rcases List.mem_append.mp h with h2 | h2
    · fin_cases h2 <;> decide
    rcases List.mem_append.mp h2 with h3 | h3
    · fin_cases h3 <;> decide
    rcases List.mem_append.mp h3 with h4 | h4
    · fin_cases h4 <;> decide
    rcases List.mem_append.mp h4 with h5 | h5
    · simpa using (hn.2 c h5).2.2.2
    · fin_cases h5 <;> decide

theorem headerCore_length (b n : List Byte) :
    (headerCore b n).length = b.length + n.length + 21 := by
  simp [headerCore, marker, xpnKey]
  omega

theorem headerBlock_length (b n : List Byte) :
    (headerBlock b n).length = b.length + n.length + 25 := by
  simp [headerBlock, headerCore_length, crlf2]

/-! ## Encoded-stream algebra -/

theorem terminal_eq (b : List Byte) : terminalMarker b = marker b ++ [45, 45] := by
  simp [terminalMarker, marker]

theorem marker_length (b : List Byte) : (marker b).length = b.length + 4 := by
  simp [marker]

theorem noOcc_crlf2_terminal {b : List Byte} (hb : goodBoundary b) :
    noOcc crlf2 (terminalMarker b) := by
  rw [terminal_eq]
  refine noOcc_crlf2_append (noOcc_crlf2_marker hb) (noOcc_of_check (by decide))
    (marker_getLast hb)

theorem encodeStream_eq_split {b : List Byte} {parts : List (List Byte × List Byte)} {k : Nat}
    (hk : k ≤ parts.length) :
    encodeStream b parts = encUpTo b parts k ++ restStream b parts k := by
  rw [encodeStream, encUpTo, restStream, ← List.append_assoc, ← List.flatten_append,
    ← List.map_append, List.take_append_drop]

theorem restStream_at_len (b : List Byte) (parts : List (List Byte × List Byte)) :
    restStream b parts parts.length = terminalMarker b := by
  simp [restStream]

theorem partAt_eq_get {parts : List (List Byte × List Byte)} {k : Nat} (hk : k < parts.length) :
    partAt parts k = parts.get ⟨k, hk⟩ := by
  simp [partAt, List.getD_eq_getElem?_getD, List.getElem?_eq_getElem hk]

theorem partAt_mem {parts : List (List Byte × List Byte)} {k : Nat} (hk : k < parts.length) :
    partAt parts k ∈ parts := by
  rw [partAt_eq_get hk]
  exact List.get_mem ..

theorem take_succ_partAt {parts : List (List Byte × List Byte)} {k : Nat}
    (hk : k < parts.length) : parts.take (k + 1) = parts.take k ++ [partAt parts k] := by
  rw [partAt_eq_get hk, ← List.take_concat_get' parts k hk]
  rfl

theorem restStream_succ_eq {b : List Byte} {parts : List (List Byte × List Byte)} {k : Nat}
    (hk : k < parts.length) :
    restStream b parts k =
      headerBlock b (partAt parts k).1 ++ ((partAt parts k).2 ++ restStream b parts (k + 1)) := by
  rw [restStream, List.drop_eq_getElem_cons hk]
  rw [List.map_cons, List.flatten_cons]
  rw [restStream]
  rw [encodePart, partAt_eq_get hk]
  simp [List.append_assoc]

theorem encUpTo_succ_eq {b : List Byte} {parts : List (List Byte × List Byte)} {k : Nat}
    (hk : k < parts.length) :
    encUpTo b parts (k + 1) =
      encUpTo b parts k ++ (headerBlock b (partAt parts k).1 ++ (partAt parts k).2) := by
  rw [encUpTo, encUpTo, take_succ_partAt hk]
  rw [List.map_append, List.flatten_append]
  simp [encodePart]

theorem marker_prefix_restStream {b : List Byte} {parts : List (List Byte × List Byte)} {k : Nat}
    (hk : k ≤ parts.length) : marker b <+: restStream b parts k := by
  rcases Nat.lt_or_ge k parts.length with hlt | hge
  · rw [restStream_succ_eq hlt]
    refine ⟨[13, 10] ++ (xpnKey ++ ([32, 34] ++ ((partAt parts k).1 ++ [34]))) ++ crlf2 ++
      ((partAt parts k).2 ++ restStream b parts (k + 1)), ?_⟩
    rw [headerBlock, headerCore_assoc]
    simp [List.append_assoc]
  · have hkl : k = parts.length := by omega
    rw [hkl, restStream_at_len, terminal_eq]
    exact ⟨[45, 45], rfl⟩

theorem restStream_ne_nil (b : List Byte) (parts : List (List Byte × List Byte)) (k : Nat) :
    restStream b parts k ≠ [] := by
  rw [restStream]
  simp [terminalMarker]

/-! ## Decoder-state helper lemmas -/

theorem closeCurrent_of_none {st : MState} (h : st.current = none) : closeCurrent st = st := by
  simp [closeCurrent, h]

theorem closeCurrent_of_open {st : MState} {f : OpenFile} (h : st.current = some f)
    (hc : f.closed = false) :
    closeCurrent st = { st with files := st.files ++ [(f.name, f.content)], current := none } := by
  simp [closeCurrent, h, hc]

theorem closeCurrent_buffer (st : MState) : (closeCurrent st).buffer = st.buffer := by
  rw [closeCurrent]
  cases st.current with
  | none => rfl
  | some f =>
    by_cases hc : f.closed <;> simp [hc]

theorem closeCurrent_current (st : MState) : (closeCurrent st).current = none := by
  rw [closeCurrent]
  cases h : st.current with
  | none => exact h
  | some f =>
    by_cases hc : f.closed <;> simp [hc]

theorem marker_prefix_of_terminal {b s : List Byte}
    (h : (terminalMarker b).isPrefixOf s = true) : (marker b).isPrefixOf s = true := by
  rw [ List.isPrefixOf_iff_prefix] at *
  have h1 : marker b <+: terminalMarker b := ⟨[45, 45], (terminal_eq b).symm⟩
  exact h1.trans h

theorem buffer_split {α : Type} {buffer Y : List α} {m : Nat} (hbuf : buffer <+: Y)
    (hm : m ≤ buffer.length) : buffer = Y.take m ++ buffer.drop m := by
  conv_lhs => rw [← List.take_append_drop m buffer]
  rw [prefix_take_eq m hbuf hm]

theorem goodA_buffer_prefix {b : List Byte} {parts : List (List Byte × List Byte)}
    {st : MState} {fed : List Byte} {k : Nat} (h : GoodA b parts st fed k)
    (hfed : fed <+: encodeStream b parts) : st.buffer <+: restStream b parts k := by
  obtain ⟨hk, _, _, hfedeq⟩ := h
  rw [hfedeq, encodeStream_eq_split hk] at hfed
  exact (prefix_cancel_left _).mp hfed

theorem goodB_buffer_prefix {b : List Byte} {parts : List (List Byte × List Byte)}
    {st : MState} {fed : List Byte} {k : Nat} {w : List Byte} (h : GoodB b parts st fed k w)
    (hfed : fed <+: encodeStream b parts) :
    ∃ q, w ++ q = (partAt parts k).2 ∧ st.buffer <+: q ++ restStream b parts (k + 1) := by
  obtain ⟨hk, _, _, hwpre, hfedeq⟩ := h
  obtain ⟨q, hq⟩ := hwpre
  refine ⟨q, hq, ?_⟩
  rw [hfedeq, encodeStream_eq_split (Nat.le_of_lt hk), restStream_succ_eq hk, ← hq] at hfed
  rw [List.append_assoc, List.append_assoc] at hfed
  rw [show encUpTo b parts k ++ (headerBlock b (partAt parts k).1 ++
      ((w ++ q) ++ restStream b parts (k + 1))) =
    encUpTo b parts k ++ (headerBlock b (partAt parts k).1 ++
      (w ++ (q ++ restStream b parts (k + 1)))) by simp [List.append_assoc]] at hfed
  exact (prefix_cancel_left _).mp ((prefix_cancel_left _).mp ((prefix_cancel_left _).mp hfed))

/-! ## Branch equations for the inner loop -/
theorem pbf_zero (b : List Byte) (st : MState) : processBufferFuel b 0 st = .ok st := rfl

theorem pbf_empty (b : List Byte) (fuel : Nat) (st : MState) (hemp : st.buffer = []) :
    processBufferFuel b (fuel + 1) st = .ok st := by
  rw [processBufferFuel, if_pos hemp]

theorem pbf_start_none (b : List Byte) (fuel : Nat) (st : MState)
    (hemp : ¬ st.buffer = []) (hpre : (marker b).isPrefixOf st.buffer = true)
    (hfind : findSub crlf2 st.buffer = none) :
    processBufferFuel b (fuel + 1) st = .ok (closeCurrent st) := by
  rw [processBufferFuel, if_neg hemp, if_pos hpre]
  simp only [closeCurrent_buffer]
  rw [hfind]

theorem pbf_start_some (b : List Byte) (fuel : Nat) (st : MState)
    (hemp : ¬ st.buffer = []) (hpre : (marker b).isPrefixOf st.buffer = true)
    {he : Nat} (hfind : findSub crlf2 st.buffer = some he)
    (hasc : (st.buffer.take he).all (· ≤ 127) = true)
    {n : List Byte} (hex : extractPartName (st.buffer.take he) = some n) :
    processBufferFuel b (fuel + 1) st =
      processBufferFuel b fuel
        { closeCurrent st with
            current := some ⟨n, [], false⟩
            buffer := st.buffer.drop (he + 4) } := by
  rw [processBufferFuel, if_neg hemp, if_pos hpre]
  simp only [closeCurrent_buffer]
  rw [hfind]
  simp only [hasc, if_true, hex]

theorem pbf_terminal (b : List Byte) (fuel : Nat) (st : MState)
    (hemp : ¬ st.buffer = []) (hpre : ¬ (marker b).isPrefixOf st.buffer = true)
    (hterm : (terminalMarker b).isPrefixOf st.buffer = true) :
    processBufferFuel b (fuel + 1) st = .ok { closeKeep st with done := true } := by
  rw [processBufferFuel, if_neg hemp, if_neg hpre, if_pos hterm]

theorem pbf_else (b : List Byte) (fuel : Nat) (st : MState)
    (hemp : ¬ st.buffer = []) (hpre : ¬ (marker b).isPrefixOf st.buffer = true)
    (hterm : ¬ (terminalMarker b).isPrefixOf st.buffer = true)
    (hcur : st.current = none) :
    processBufferFuel b (fuel + 1) st = .ok st := by
  rw [processBufferFuel, if_neg hemp, if_neg hpre, if_neg hterm, hcur]

theorem pbf_mid_found (b : List Byte) (fuel : Nat) (st : MState) {nm ct : List Byte}
    (hemp : ¬ st.buffer = []) (hpre : ¬ (marker b).isPrefixOf st.buffer = true)
    (hterm : ¬ (terminalMarker b).isPrefixOf st.buffer = true)
    (hcur : st.current = some ⟨nm, ct, false⟩)
    {i : Nat} (hfind : findSub (marker b) st.buffer = some i) :
    processBufferFuel b (fuel + 1) st =
      processBufferFuel b fuel
        { st with
            buffer := st.buffer.drop i
            current := some ⟨nm, ct ++ st.buffer.take i, false⟩ } := by
  rw [processBufferFuel, if_neg hemp, if_neg hpre, if_neg hterm, hcur]
  rw [hfind]
  rfl

theorem pbf_mid_none_small (b : List Byte) (fuel : Nat) (st : MState) {f : OpenFile}
    (hemp : ¬ st.buffer = []) (hpre : ¬ (marker b).isPrefixOf st.buffer = true)
    (hterm : ¬ (terminalMarker b).isPrefixOf st.buffer = true)
    (hcur : st.current = some f)
    (hfind : findSub (marker b) st.buffer = none)
    (hsmall : st.buffer.length ≤ CHUNK_SIZE) :
    processBufferFuel b (fuel + 1) st = .ok st := by
  rw [processBufferFuel, if_neg hemp, if_neg hpre, if_neg hterm, hcur]
  rw [hfind]
  simp only [if_neg (show ¬ 0 < st.buffer.length - CHUNK_SIZE by omega)]

theorem pbf_mid_none_big (b : List Byte) (fuel : Nat) (st : MState) {nm ct : List Byte}
    (hemp : ¬ st.buffer = []) (hpre : ¬ (marker b).isPrefixOf st.buffer = true)
    (hterm : ¬ (terminalMarker b).isPrefixOf st.buffer = true)
    (hcur : st.current = some ⟨nm, ct, false⟩)
    (hfind : findSub (marker b) st.buffer = none)
    {safe : Nat} (hsafe : safe = st.buffer.length - CHUNK_SIZE) (hbig : 0 < safe) :
    processBufferFuel b (fuel + 1) st =
      .ok { st with
            buffer := st.buffer.drop safe
            current := some ⟨nm, ct ++ st.buffer.take safe, false⟩ } := by
  rw [processBufferFuel, if_neg hemp, if_neg hpre, if_neg hterm, hcur]
  rw [hfind]
  simp only [if_pos (show 0 < st.buffer.length - CHUNK_SIZE by omega)]
  rw [← hsafe]
  rfl

/-! ## The simulation argument -/
theorem noOcc_right {α : Type} {pat w q : List α} (h : noOcc pat (w ++ q)) : noOcc pat q := by
  intro j hocc
  exact h (w.length + j) (occursAt_append_right w hocc)

theorem findSub_drop_none {α : Type} [DecidableEq α] {pat s : List α}
    (h : findSub pat s = none) (m : Nat) : findSub pat (s.drop m) = none := by
  cases hfs : findSub pat (s.drop m) with
  | none => rfl
  | some i =>
    rcases findSub_complete (occursAt_shift (findSub_some hfs)) with ⟨i', hi', _⟩
    rw [h] at hi'
    cases hi'

theorem headerBlock_eq_core (b n tail : List Byte) :
    headerBlock b n ++ tail = headerCore b n ++ (crlf2 ++ tail) := by
  simp [headerBlock, List.append_assoc]

set_option maxRecDepth 4000

/-- The central invariant-preservation lemma: on a `Good` state whose fed
bytes are a prefix of the encoded stream, the inner loop terminates without
error, preserves `Good`, and stops in a stable wait state. -/
theorem process_preserves_good {b : List Byte} {parts : List (List Byte × List Byte)}
    (hb : goodBoundary b)
    (hparts : ∀ pr ∈ parts, goodName pr.1 ∧ noOcc (marker b) pr.2) :
    ∀ (fuel : Nat) (st : MState) (fed : List Byte),
      st.buffer.length ≤ fuel →
      fed <+: encodeStream b parts →
      Good b parts st fed →
      ∃ st', processBufferFuel b fuel st = .ok st' ∧ Good b parts st' fed ∧
        StableState b st' := by
  intro fuel
  induction fuel with
  | zero =>
    intro st fed hf _ hg
    have hemp : st.buffer = [] := List.length_eq_zero.mp (Nat.le_zero.mp hf)
    exact ⟨st, rfl, hg, Or.inl hemp⟩
  | succ fuel ih =>
    intro st fed hf hfed hg
    by_cases hemp : st.buffer = []
    · exact ⟨st, pbf_empty b fuel st hemp, hg, Or.inl hemp⟩
    by_cases hpre : (marker b).isPrefixOf st.buffer = true
    case pos =>
      have hpre' : marker b <+: st.buffer := by
        rwa [ List.isPrefixOf_iff_prefix] at hpre
      -- after the unconditional close, the state is in phase A
      have hstep : ∃ kk, GoodA b parts (closeCurrent st) fed kk := by
        rcases hg with ⟨k, hA⟩ | ⟨k, w, hB⟩
        · exact ⟨k, by rwa [closeCurrent_of_none hA.2.2.1]⟩
        · obtain ⟨q, hq, hbufq⟩ := goodB_buffer_prefix hB hfed
          obtain ⟨hk, hfiles, hcur, hwpre, hfedeq⟩ := hB
          have hnoq : noOcc (marker b) q := noOcc_right (hq ▸ (hparts _ (partAt_mem hk)).2)
          have hqnil : q = [] := by
            by_contra hqne
            have h0 : occursAt (marker b) (q ++ restStream b parts (k + 1)) 0 :=
              occursAt_mono hbufq ((occursAt_zero ..).mpr hpre')
            exact marker_first (goodBoundary_no_cr hb) hnoq
              (marker_prefix_restStream (by omega)) 0
              (List.length_pos.mpr hqne) h0
          subst hqnil
          rw [List.append_nil] at hq
          refine ⟨k + 1, by omega, ?_, ?_, ?_⟩
          · rw [closeCurrent_of_open hcur rfl]
            show st.files ++ [((partAt parts k).1, w)] = parts.take (k + 1)
            rw [hfiles, take_succ_partAt hk, hq]
          · exact closeCurrent_current st
          · rw [closeCurrent_buffer, hfedeq, encUpTo_succ_eq hk, hq]
            simp [List.append_assoc]
      obtain ⟨kk, hA1⟩ := hstep
      have hbufR : st.buffer <+: restStream b parts kk := by
        have h1 := goodA_buffer_prefix hA1 hfed
        rwa [closeCurrent_buffer] at h1
      rcases Nat.lt_or_ge kk parts.length with hklt | hkge
      · -- header-block region of part kk
        have hgn : goodName (partAt parts kk).1 := (hparts _ (partAt_mem hklt)).1
        have hbufH : st.buffer <+: headerBlock b (partAt parts kk).1 ++
            ((partAt parts kk).2 ++ restStream b parts (kk + 1)) := by
          rwa [restStream_succ_eq hklt] at hbufR
        have hlens : (headerBlock b (partAt parts kk).1).length =
            (headerCore b (partAt parts kk).1).length + 4 := by
          rw [headerBlock_length, headerCore_length]
        cases hfind : findSub crlf2 st.buffer with
        | none =>
          refine ⟨closeCurrent st, pbf_start_none b fuel st hemp hpre hfind,
            Or.inl ⟨kk, hA1⟩, Or.inr (Or.inl ⟨?_, ?_, closeCurrent_current st⟩)⟩
          · rwa [closeCurrent_buffer]
          · rwa [closeCurrent_buffer]
        | some he =>
          obtain ⟨hhe, hlenB⟩ := (findSub_crlf2_header hb hgn hbufH).2 he hfind
          have htake : st.buffer.take he = headerCore b (partAt parts kk).1 := by
            rw [hhe, ← prefix_take_eq _ hbufH (by omega), headerBlock_eq_core,
              List.take_left]
          have hasc : (st.buffer.take he).all (· ≤ 127) = true := by
            rw [htake]
            exact headerCore_ascii hb hgn
          have hex : extractPartName (st.buffer.take he) = some (partAt parts kk).1 := by
            rw [htake]
            exact extractPartName_headerCore hb hgn
          have hbsplit : st.buffer =
              headerBlock b (partAt parts kk).1 ++ st.buffer.drop (he + 4) := by
            have h4 : he + 4 = (headerBlock b (partAt parts kk).1).length := by omega
            rw [h4]
            conv_lhs => rw [@buffer_split _ _ _
              (headerBlock b (partAt parts kk).1).length hbufH (by omega)]
            rw [List.take_left]
          have hgood : GoodB b parts
              { closeCurrent st with
                  current := some ⟨(partAt parts kk).1, [], false⟩
                  buffer := st.buffer.drop (he + 4) } fed kk [] := by
            refine ⟨hklt, hA1.2.1, rfl, List.nil_prefix, ?_⟩
            show fed = encUpTo b parts kk ++ headerBlock b (partAt parts kk).1 ++ [] ++
              st.buffer.drop (he + 4)
            have hfe : fed = encUpTo b parts kk ++ st.buffer := by
              have := hA1.2.2.2
              rwa [closeCurrent_buffer] at this
            rw [hfe]
            conv_lhs => rw [hbsplit]
            simp [List.append_assoc]
          have hfuel' : (st.buffer.drop (he + 4)).length ≤ fuel := by
            rw [List.length_drop]
            omega
          obtain ⟨st', hrun, hg', hs'⟩ := ih _ fed hfuel' hfed (Or.inr ⟨kk, [], hgood⟩)
          exact ⟨st', by rw [pbf_start_some b fuel st hemp hpre hfind hasc hex]; exact hrun,
            hg', hs'⟩
      · -- kk = parts.length : only the terminal marker remains
        have hkle : kk ≤ parts.length := hA1.1
        have hkeq : kk = parts.length := by omega
        have hbufT : st.buffer <+: terminalMarker b := by
          rwa [hkeq, restStream_at_len] at hbufR
        have hfind : findSub crlf2 st.buffer = none :=
          findSub_none_of_noOcc (noOcc_crlf2_terminal hb) hbufT
        refine ⟨closeCurrent st, pbf_start_none b fuel st hemp hpre hfind,
          Or.inl ⟨kk, hA1⟩, Or.inr (Or.inl ⟨?_, ?_, closeCurrent_current st⟩)⟩
        · rwa [closeCurrent_buffer]
        · rwa [closeCurrent_buffer]
    case neg =>
      by_cases hterm : (terminalMarker b).isPrefixOf st.buffer = true
      · exact absurd (marker_prefix_of_terminal hterm) hpre
      rcases hg with ⟨k, hA⟩ | ⟨k, w, hB⟩
      · exact ⟨st, pbf_else b fuel st hemp hpre hterm hA.2.2.1, Or.inl ⟨k, hA⟩,
          Or.inr (Or.inr (Or.inr ⟨hA.2.2.1, hpre⟩))⟩
      · obtain ⟨q, hq, hbufq⟩ := goodB_buffer_prefix hB hfed
        obtain ⟨hk, hfiles, hcur, hwpre, hfedeq⟩ := hB
        have hnoq : noOcc (marker b) q := noOcc_right (hq ▸ (hparts _ (partAt_mem hk)).2)
        have hRpre : marker b <+: restStream b parts (k + 1) :=
          marker_prefix_restStream (by omega)
        have hmf := findSub_marker_first (goodBoundary_no_cr hb) hnoq hRpre hbufq
        have hnpre : ¬ marker b <+: st.buffer := fun hc =>
          hpre (by rw [ List.isPrefixOf_iff_prefix]; exact hc)
        cases hfind : findSub (marker b) st.buffer with
        | some i =>
          obtain ⟨hieq, hlen⟩ := hmf.2 i hfind
          have hipos : 1 ≤ i := by
            rcases Nat.eq_zero_or_pos i with h0 | h0
            · rw [h0] at hfind
              exact absurd (findSub_zero_iff.mp hfind) hnpre
            · omega
          have htakeq : st.buffer.take i = q := by
            rw [hieq, ← prefix_take_eq _ hbufq (by omega), List.take_left]
          have hgood : GoodB b parts
              { st with
                  buffer := st.buffer.drop i
                  current := some ⟨(partAt parts k).1, w ++ st.buffer.take i, false⟩ }
              fed k (w ++ q) := by
            refine ⟨hk, hfiles, ?_, ?_, ?_⟩
            · show some (⟨(partAt parts k).1, w ++ st.buffer.take i, false⟩ : OpenFile) =
                some ⟨(partAt parts k).1, w ++ q, false⟩
              rw [htakeq]
            · rw [hq]
            · show fed = encUpTo b parts k ++ headerBlock b (partAt parts k).1 ++ (w ++ q) ++
                st.buffer.drop i
              rw [hfedeq]
              conv_lhs => rw [show st.buffer = st.buffer.take i ++ st.buffer.drop i from
                (List.take_append_drop i st.buffer).symm]
              rw [htakeq]
              simp [List.append_assoc]
          have hfuel' : (st.buffer.drop i).length ≤ fuel := by
            rw [List.length_drop]
            omega
          obtain ⟨st', hrun, hg', hs'⟩ := ih _ fed hfuel' hfed (Or.inr ⟨k, w ++ q, hgood⟩)
          exact ⟨st', by rw [pbf_mid_found b fuel st hemp hpre hterm hcur hfind]; exact hrun,
            hg', hs'⟩
        | none =>
          have hshort : st.buffer.length < q.length + (marker b).length := hmf.1 hfind
          have hml := marker_length b
          have hble : b.length ≤ 70 := hb.2.1
          by_cases hbig : CHUNK_SIZE < st.buffer.length
          · obtain ⟨safe, hsafedef⟩ : ∃ s, s = st.buffer.length - CHUNK_SIZE := ⟨_, rfl⟩
            have hck : CHUNK_SIZE = 8192 := rfl
            have hbig' : 0 < safe := by omega
            have hsafe_le : safe ≤ q.length := by omega
            have htksafe : st.buffer.take safe = q.take safe := by
              rw [← prefix_take_eq _ hbufq (by omega), List.take_append_of_le_length hsafe_le]
            have hfsn : findSub (marker b) (st.buffer.drop safe) = none :=
              findSub_drop_none hfind _
            have hlensmall : (st.buffer.drop safe).length ≤ CHUNK_SIZE := by
              rw [List.length_drop]
              omega
            have hgood : GoodB b parts
                { st with
                    buffer := st.buffer.drop safe
                    current := some ⟨(partAt parts k).1, w ++ st.buffer.take safe, false⟩ }
                fed k (w ++ q.take safe) := by
              refine ⟨hk, hfiles, ?_, ?_, ?_⟩
              · show some (⟨(partAt parts k).1, w ++ st.buffer.take safe, false⟩ : OpenFile) =
                  some ⟨(partAt parts k).1, w ++ q.take safe, false⟩
                rw [htksafe]
              · rw [← hq]
                exact (prefix_cancel_left w).mpr ⟨q.drop safe, List.take_append_drop safe q⟩
              · show fed = encUpTo b parts k ++ headerBlock b (partAt parts k).1 ++
                  (w ++ q.take safe) ++ st.buffer.drop safe
                rw [hfedeq]
                conv_lhs => rw [show st.buffer = st.buffer.take safe ++ st.buffer.drop safe from
                  (List.take_append_drop safe st.buffer).symm]
                rw [htksafe]
                simp [List.append_assoc]
            have hstable : StableState b
                { st with
                    buffer := st.buffer.drop safe
                    current := some ⟨(partAt parts k).1, w ++ st.buffer.take safe, false⟩ } :=
              Or.inr (Or.inr (Or.inl ⟨⟨_, rfl⟩, hfsn, hlensmall⟩))
            exact ⟨_, pbf_mid_none_big b fuel st hemp hpre hterm hcur hfind hsafedef hbig',
              Or.inr ⟨k, _, hgood⟩, hstable⟩
          · exact ⟨st, pbf_mid_none_small b fuel st hemp hpre hterm hcur hfind (by omega),
              Or.inr ⟨k, w, ⟨hk, hfiles, hcur, hwpre, hfedeq⟩⟩,
              Or.inr (Or.inr (Or.inl ⟨⟨_, hcur⟩, hfind, by omega⟩))⟩
theorem good_extend {b : List Byte} {parts : List (List Byte × List Byte)} {st : MState}
    {fed : List Byte} (c : List Byte) (t : Nat) (hg : Good b parts st fed) :
    Good b parts { st with buffer := st.buffer ++ c, totBytes := t } (fed ++ c) := by
  rcases hg with ⟨k, hk, hfiles, hcur, hfed⟩ | ⟨k, w, hk, hfiles, hcur, hw, hfed⟩
  · exact Or.inl ⟨k, hk, hfiles, hcur, by rw [hfed]; simp [List.append_assoc]⟩
  · exact Or.inr ⟨k, w, hk, hfiles, hcur, hw, by rw [hfed]; simp [List.append_assoc]⟩

theorem good_totBytes {b : List Byte} {parts : List (List Byte × List Byte)} {st : MState}
    {fed : List Byte} (t : Nat) (hg : Good b parts st fed) :
    Good b parts { st with totBytes := t } fed := by
  rcases hg with ⟨k, hk, hfiles, hcur, hfed⟩ | ⟨k, w, hk, hfiles, hcur, hw, hfed⟩
  · exact Or.inl ⟨k, hk, hfiles, hcur, hfed⟩
  · exact Or.inr ⟨k, w, hk, hfiles, hcur, hw, hfed⟩

theorem stable_totBytes {b : List Byte} {st : MState} (t : Nat) (hs : StableState b st) :
    StableState b { st with totBytes := t } := by
  rcases hs with h | ⟨h1, h2, h3⟩ | ⟨⟨f, hf⟩, h2, h3⟩ | ⟨h1, h2⟩
  · exact Or.inl h
  · exact Or.inr (Or.inl ⟨h1, h2, h3⟩)
  · exact Or.inr (Or.inr (Or.inl ⟨⟨f, hf⟩, h2, h3⟩))
  · exact Or.inr (Or.inr (Or.inr ⟨h1, h2⟩))

/-- Chunk-loop preservation: fed plus the remaining chunks always make up
the whole stream, so the final state satisfies the invariant at the full
stream together with a stable stop condition. -/
theorem run_preserves_good {b : List Byte} {parts : List (List Byte × List Byte)}
    (hb : goodBoundary b)
    (hparts : ∀ pr ∈ parts, goodName pr.1 ∧ noOcc (marker b) pr.2) :
    ∀ (chunks : List (List Byte)) (st : MState) (fed : List Byte),
      Good b parts st fed → StableState b st →
      fed ++ chunks.flatten = encodeStream b parts →
      ∃ st', runChunks b st chunks = .ok st' ∧
        Good b parts st' (encodeStream b parts) ∧ StableState b st' := by
  intro chunks
  induction chunks with
  | nil =>
    intro st fed hg hs hfeq
    rw [List.flatten_nil, List.append_nil] at hfeq
    exact ⟨st, rfl, hfeq ▸ hg, hs⟩
  | cons c cs ih =>
    intro st fed hg hs hfeq
    by_cases hc : c = []
    · subst hc
      have hrun : runChunks b st ([] :: cs) =
          runChunks b { st with totBytes := st.totBytes + 0 } cs := by
        rw [runChunks]
        rfl
      rw [hrun]
      exact ih { st with totBytes := st.totBytes + 0 } fed (good_totBytes _ hg)
        (stable_totBytes _ hs) (by simpa using hfeq)
    · have hfc : feedChunk b st c =
          processBufferFuel b (st.buffer ++ c).length
            { st with buffer := st.buffer ++ c, totBytes := st.totBytes + c.length } := by
        rw [feedChunk]
        simp only [if_neg hc]
      have hg1 : Good b parts
          { st with buffer := st.buffer ++ c, totBytes := st.totBytes + c.length }
          (fed ++ c) := good_extend c _ hg
      have hfedpre : fed ++ c <+: encodeStream b parts := by
        rw [← hfeq, List.flatten_cons, ← List.append_assoc]
        exact ⟨cs.flatten, rfl⟩
      obtain ⟨st2, hp, hg2, hs2⟩ := process_preserves_good hb hparts
        (st.buffer ++ c).length
        { st with buffer := st.buffer ++ c, totBytes := st.totBytes + c.length }
        (fed ++ c) (le_refl _) hfedpre hg1
      have hrun : runChunks b st (c :: cs) = runChunks b st2 cs := by
        rw [runChunks, hfc, hp]
      rw [hrun]
      exact ih st2 (fed ++ c) hg2 hs2
        (by rw [List.append_assoc, ← List.flatten_cons]; exact hfeq)
theorem pbf_of_empty (b : List Byte) (fuel : Nat) (st : MState) (h : st.buffer = []) :
    processBufferFuel b fuel st = .ok st := by
  cases fuel with
  | zero => rfl
  | succ fuel => exact pbf_empty b fuel st h

theorem marker_prefix_headerBlock (b n : List Byte) : marker b <+: headerBlock b n := by
  rw [headerBlock, headerCore_assoc]
  exact ⟨([13, 10] ++ (xpnKey ++ ([32, 34] ++ (n ++ [34])))) ++ crlf2,
    by simp [List.append_assoc]⟩

theorem withheld_le_chunk_aux (b : List Byte) :
    ∀ (fuel : Nat) (st st' : MState), st.buffer.length ≤ fuel →
      processBufferFuel b fuel st = .ok st' → st'.current.isSome = true →
      st'.buffer.length ≤ CHUNK_SIZE := by
  intro fuel
  induction fuel with
  | zero =>
    intro st st' hfuel h _
    cases h
    have hemp : st.buffer = [] := List.length_eq_zero.mp (Nat.le_zero.mp hfuel)
    simp [hemp]
  | succ fuel ih =>
    intro st st' hfuel h hopen
    by_cases hemp : st.buffer = []
    · rw [pbf_empty b fuel st hemp] at h
      cases h
      simp [hemp]
    by_cases hpre : (marker b).isPrefixOf st.buffer = true
    · rw [processBufferFuel, if_neg hemp, if_pos hpre] at h
      simp only [closeCurrent_buffer] at h
      cases hfind : findSub crlf2 st.buffer with
      | none =>
        simp only [hfind] at h
        cases h
        rw [closeCurrent_current] at hopen
        cases hopen
      | some he =>
        simp only [hfind] at h
        by_cases hasc : (st.buffer.take he).all (· ≤ 127) = true
        · simp only [hasc, if_true] at h
          cases hex : extractPartName (st.buffer.take he) with
          | some n =>
            simp only [hex] at h
            refine ih _ st' ?_ h hopen
            simp only [List.length_drop]
            omega
          | none =>
            simp only [hex] at h
            refine ih _ st' ?_ h hopen
            simp only [List.length_drop]
            omega
        · simp only [hasc, if_false] at h
          cases h
    by_cases hterm : (terminalMarker b).isPrefixOf st.buffer = true
    · exact absurd (marker_prefix_of_terminal hterm) hpre
    rw [processBufferFuel, if_neg hemp, if_neg hpre, if_neg hterm] at h
    cases hcur : st.current with
    | none =>
      simp only [hcur] at h
      cases h
      have : st.current.isSome = true := hopen
      rw [hcur] at this
      cases this
    | some f =>
      simp only [hcur] at h
      cases hfind : findSub (marker b) st.buffer with
      | some i =>
        simp only [hfind] at h
        cases hcl : f.closed with
        | true =>
          rw [writeFile, if_pos hcl] at h
          cases h
        | false =>
          rw [writeFile, if_neg (by rw [hcl]; exact Bool.false_ne_true)] at h
          have hipos : 1 ≤ i := by
            rcases Nat.eq_zero_or_pos i with h0 | h0
            · rw [h0] at hfind
              have := findSub_zero_iff.mp hfind
              rw [← List.isPrefixOf_iff_prefix] at this
              exact absurd this hpre
            · omega
          refine ih _ st' ?_ h hopen
          simp only [List.length_drop]
          omega
      | none =>
        simp only [hfind] at h
        rw [show CHUNK_SIZE = 8192 from rfl] at h
        generalize hgen : st.buffer.length - 8192 = safe at h
        by_cases hsafe : 0 < safe
        · simp only [if_pos hsafe] at h
          cases hcl : f.closed with
          | true =>
            rw [writeFile, if_pos hcl] at h
            cases h
          | false =>
            rw [writeFile, if_neg (by rw [hcl]; exact Bool.false_ne_true)] at h
            cases h
            simp only [List.length_drop]
            rw [show CHUNK_SIZE = 8192 from rfl]
            omega
        · simp only [if_neg hsafe] at h
          cases h
          rw [show CHUNK_SIZE = 8192 from rfl]
          omega

/-- C4 (amended): whenever the inner loop stops and returns with a part
still open, the withheld unflushed tail in the accumulation buffer is at
most `CHUNK_SIZE` (8192) bytes — a bound set by the chunk-size constant,
not by `len(boundary_token) + 4`. -/
theorem withheld_tail_at_most_chunk_size (b : List Byte) (st st' : MState)
    (h : processBufferFuel b st.buffer.length st = .ok st')
    (hopen : st'.current.isSome = true) : st'.buffer.length ≤ CHUNK_SIZE :=
  withheld_le_chunk_aux b st.buffer.length st st' (le_refl _) h hopen
theorem headerBlock_ne_nil (b n : List Byte) : headerBlock b n ≠ [] := by
  intro hcon
  have := congrArg List.length hcon
  rw [headerBlock_length] at this
  simp at this

theorem findSub_crlf2_headerBlock {b n : List Byte} (hb : goodBoundary b) (hn : goodName n) :
    findSub crlf2 (headerBlock b n) = some (headerCore b n).length := by
  have hbuf : headerBlock b n <+: headerBlock b n ++ [] := by
    rw [List.append_nil]
  have hp := findSub_crlf2_header hb hn hbuf
  cases hfs : findSub crlf2 (headerBlock b n) with
  | none =>
    have := hp.1 hfs
    omega
  | some he =>
    have := (hp.2 he hfs).1
    rw [this]

/-- Running the decoder on a stream that ends right after one complete
start-boundary and header block: the decoder consumes the header, opens the
part's file and returns normally with the file still open and empty. -/
theorem truncated_header_run (b n : List Byte) (hb : goodBoundary b) (hn : goodName n) :
    ∃ st, runChunks b initState [headerBlock b n] = .ok st ∧
      st.files = [] ∧ st.current = some ⟨n, [], false⟩ ∧ st.buffer = [] ∧
      outputsOf st = [(n, [])] := by
  have hne : headerBlock b n ≠ [] := headerBlock_ne_nil b n
  have hlen := headerBlock_length b n
  have hcl := headerCore_length b n
  have hst1 : feedChunk b initState (headerBlock b n) =
      processBufferFuel b (headerBlock b n).length
        ⟨headerBlock b n, none, [], false, 0 + (headerBlock b n).length⟩ := by
    rw [feedChunk]
    simp only [if_neg hne]
    rfl
  have hfuelsplit : (headerBlock b n).length = (b.length + n.length + 24) + 1 := by omega
  have hpre : (marker b).isPrefixOf (headerBlock b n) = true := by
    rw [ List.isPrefixOf_iff_prefix]
    exact marker_prefix_headerBlock b n
  have hfind : findSub crlf2 (headerBlock b n) = some (headerCore b n).length :=
    findSub_crlf2_headerBlock hb hn
  have htk : (headerBlock b n).take (headerCore b n).length = headerCore b n := by
    rw [headerBlock]
    exact List.take_left ..
  have hasc : ((headerBlock b n).take (headerCore b n).length).all (· ≤ 127) = true := by
    rw [htk]
    exact headerCore_ascii hb hn
  have hex : extractPartName ((headerBlock b n).take (headerCore b n).length) = some n := by
    rw [htk]
    exact extractPartName_headerCore hb hn
  have hdrop : (headerBlock b n).drop ((headerCore b n).length + 4) = [] := by
    apply List.drop_eq_nil_of_le
    omega
  refine ⟨⟨[], some ⟨n, [], false⟩, [], false, 0 + (headerBlock b n).length⟩, ?_, rfl, rfl,
    rfl, rfl⟩
  rw [runChunks, hst1]
  generalize 0 + (headerBlock b n).length = t
  rw [hfuelsplit]
  rw [pbf_start_some b (b.length + n.length + 24)
    ⟨headerBlock b n, none, [], false, t⟩ hne hpre hfind hasc hex]
  rw [closeCurrent_of_none rfl]
  rw [show (⟨headerBlock b n, none, [], false, t⟩ : MState).buffer =
    headerBlock b n from rfl, hdrop]
  rw [pbf_of_empty b (b.length + n.length + 24) _ rfl]
  rfl
/-- At the end of the stream, a stable invariant state must have closed all
parts: exactly the encoded parts are on disk and no file is open. -/
theorem good_stable_final {b : List Byte} {parts : List (List Byte × List Byte)}
    (hb : goodBoundary b)
    (hparts : ∀ pr ∈ parts, goodName pr.1 ∧ noOcc (marker b) pr.2) {st : MState}
    (hg : Good b parts st (encodeStream b parts)) (hs : StableState b st) :
    st.files = parts ∧ st.current = none := by
  rcases hg with ⟨k, hk, hfiles, hcur, hfed⟩ | ⟨k, w, hB⟩
  · have hbuf : st.buffer = restStream b parts k := by
      rw [encodeStream_eq_split hk] at hfed
      exact (List.append_cancel_left hfed).symm
    rcases Nat.lt_or_ge k parts.length with hklt | hkge
    · exfalso
      have hmp : (marker b).isPrefixOf st.buffer = true := by
        rw [ List.isPrefixOf_iff_prefix, hbuf]
        exact marker_prefix_restStream (Nat.le_of_lt hklt)
      have hocc : occursAt crlf2 st.buffer (headerCore b (partAt parts k).1).length := by
        rw [hbuf, restStream_succ_eq hklt,
          headerBlock_eq_core b (partAt parts k).1
            ((partAt parts k).2 ++ restStream b parts (k + 1))]
        have h0 : occursAt crlf2 (crlf2 ++ ((partAt parts k).2 ++ restStream b parts (k + 1)))
            0 := (occursAt_zero ..).mpr (List.prefix_append ..)
        simpa using occursAt_append_right (headerCore b (partAt parts k).1) h0
      rcases hs with h1 | ⟨h2a, h2b, h2c⟩ | ⟨⟨f, hf⟩, _, _⟩ | ⟨h4a, h4b⟩
      · exact restStream_ne_nil b parts k (hbuf ▸ h1)
      · rcases findSub_complete hocc with ⟨i, hi, _⟩
        rw [h2b] at hi
        cases hi
      · rw [hcur] at hf
        cases hf
      · exact h4b hmp
    · have hkeq : k = parts.length := by omega
      subst hkeq
      exact ⟨by rw [hfiles, List.take_length], hcur⟩
  · exfalso
    obtain ⟨hk, hfiles, hcur, hw, hfed⟩ := hB
    obtain ⟨q, hq⟩ := hw
    have hbuf : st.buffer = q ++ restStream b parts (k + 1) := by
      rw [encodeStream_eq_split (Nat.le_of_lt hk), restStream_succ_eq hk, ← hq] at hfed
      rw [List.append_assoc, List.append_assoc] at hfed
      rw [List.append_assoc (encUpTo b parts k) (headerBlock b (partAt parts k).1)] at hfed
      exact (List.append_cancel_left (List.append_cancel_left
        (List.append_cancel_left hfed))).symm
    have hocc : occursAt (marker b) st.buffer q.length := by
      rw [hbuf]
      have h0 : occursAt (marker b) (restStream b parts (k + 1)) 0 :=
        (occursAt_zero ..).mpr (marker_prefix_restStream (by omega))
      simpa using occursAt_append_right q h0
    rcases hs with h1 | ⟨h2a, h2b, h2c⟩ | ⟨_, hfind, _⟩ | ⟨h4a, _⟩
    · rw [h1] at hbuf
      exact restStream_ne_nil b parts (k + 1) (List.append_eq_nil.mp hbuf.symm).2
    · rw [hcur] at h2c
      cases h2c
    · rcases findSub_complete hocc with ⟨i, hi, _⟩
      rw [hfind] at hi
      cases hi
    · rw [hcur] at h4a
      cases h4a

/-- Full-run correctness of the multipart decoder on any chunking of a
well-formed stream. -/
theorem decoder_correct {b : List Byte} {parts : List (List Byte × List Byte)}
    (hb : goodBoundary b)
    (hparts : ∀ pr ∈ parts, goodName pr.1 ∧ noOcc (marker b) pr.2)
    (chunks : List (List Byte)) (hchunks : chunks.flatten = encodeStream b parts) :
    ∃ st, runChunks b initState chunks = .ok st ∧ st.files = parts ∧
      st.current = none ∧ outputsOf st = parts := by
  have hg0 : Good b parts initState [] := Or.inl ⟨0, Nat.zero_le _, rfl, rfl, rfl⟩
  have hs0 : StableState b initState := Or.inl rfl
  obtain ⟨st, hrun, hg, hs⟩ := run_preserves_good hb hparts chunks initState [] hg0 hs0
    (by simpa using hchunks)
  obtain ⟨hfiles, hcur⟩ := good_stable_final hb hparts hg hs
  exact ⟨st, hrun, hfiles, hcur, by rw [outputsOf, hcur, hfiles, List.append_nil]⟩
/-- Branch equation: start-of-part with a fully received header block
lacking the name field — the header is dropped, no file is opened. -/
theorem pbf_nameless (b : List Byte) (fuel : Nat) (st : MState)
    (hemp : ¬ st.buffer = []) (hpre : (marker b).isPrefixOf st.buffer = true)
    {he : Nat} (hfind : findSub crlf2 st.buffer = some he)
    (hasc : (st.buffer.take he).all (· ≤ 127) = true)
    (hex : extractPartName (st.buffer.take he) = none) :
    processBufferFuel b (fuel + 1) st =
      processBufferFuel b fuel
        { closeCurrent st with buffer := st.buffer.drop (he + 4) } := by
  rw [processBufferFuel, if_neg hemp, if_pos hpre]
  simp only [closeCurrent_buffer]
  rw [hfind]
  simp only [hasc, if_true, hex]

/-- Under the invariant, an open file is never in the closed state. -/
theorem good_current_open {b : List Byte} {parts : List (List Byte × List Byte)}
    {st : MState} {fed : List Byte} (hg : Good b parts st fed) :
    ∀ f, st.current = some f → f.closed = false := by
  intro f hf
  rcases hg with ⟨k, hk, hfiles, hcur, hfed⟩ | ⟨k, w, hk, hfiles, hcur, hw, hfed⟩
  · rw [hcur] at hf
    cases hf
  · rw [hcur] at hf
    injection hf with h
    subst h
    rfl

/-- Chunk-loop preservation on any prefix of the stream: a truncated feed
keeps the invariant at exactly the bytes fed so far. -/
theorem run_preserves_good_prefix {b : List Byte} {parts : List (List Byte × List Byte)}
    (hb : goodBoundary b)
    (hparts : ∀ pr ∈ parts, goodName pr.1 ∧ noOcc (marker b) pr.2) :
    ∀ (chunks : List (List Byte)) (st : MState) (fed : List Byte),
      Good b parts st fed →
      (fed ++ chunks.flatten) <+: encodeStream b parts →
      ∃ st', runChunks b st chunks = .ok st' ∧
        Good b parts st' (fed ++ chunks.flatten) := by
  intro chunks
  induction chunks with
  | nil =>
    intro st fed hg hpre
    rw [List.flatten_nil, List.append_nil]
    exact ⟨st, rfl, hg⟩
  | cons c cs ih =>
    intro st fed hg hpre
    by_cases hc : c = []
    · subst hc
      have hrun : runChunks b st ([] :: cs) =
          runChunks b { st with totBytes := st.totBytes + 0 } cs := by
        rw [runChunks]
        rfl
      rw [hrun]
      have h := ih { st with totBytes := st.totBytes + 0 } fed (good_totBytes _ hg)
        (by simpa using hpre)
      simpa using h
    · have hfc : feedChunk b st c =
          processBufferFuel b (st.buffer ++ c).length
            { st with buffer := st.buffer ++ c, totBytes := st.totBytes + c.length } := by
        rw [feedChunk]
        simp only [if_neg hc]
      have hg1 : Good b parts
          { st with buffer := st.buffer ++ c, totBytes := st.totBytes + c.length }
          (fed ++ c) := good_extend c _ hg
      have hfedpre : fed ++ c <+: encodeStream b parts := by
        refine List.IsPrefix.trans ?_ hpre
        rw [List.flatten_cons, ← List.append_assoc]
        exact ⟨cs.flatten, rfl⟩
      obtain ⟨st2, hp, hg2, _⟩ := process_preserves_good hb hparts
        (st.buffer ++ c).length
        { st with buffer := st.buffer ++ c, totBytes := st.totBytes + c.length }
        (fed ++ c) (le_refl _) hfedpre hg1
      have hrun : runChunks b st (c :: cs) = runChunks b st2 cs := by
        rw [runChunks, hfc, hp]
      rw [hrun]
      obtain ⟨st3, h1, h2⟩ := ih st2 (fed ++ c) hg2
        (by rw [List.append_assoc, ← List.flatten_cons]; exact hpre)
      refine ⟨st3, h1, ?_⟩
      rw [List.flatten_cons, ← List.append_assoc]
      exact h2

/-! ## Claims -/

/-- C1: for every well-formed multipart byte stream and every chunking of
it, the decoder runs to completion without error and produces output files
byte-identical to the reference single-shot parse (the whole stream fed as
one chunk), both being exactly the encoded parts — so a boundary-prefix
tail withheld at a chunk border is never duplicated and never dropped. -/
theorem multipart_chunking_invariant (b : List Byte) (parts : List (List Byte × List Byte))
    (chunks : List (List Byte)) (hwf : wellFormed b parts)
    (hchunks : chunks.flatten = encodeStream b parts) :
    ∃ st stRef, runChunks b initState chunks = .ok st ∧
      runChunks b initState [encodeStream b parts] = .ok stRef ∧
      outputsOf st = outputsOf stRef ∧ outputsOf st = parts := by
  obtain ⟨hb, hparts⟩ := hwf
  obtain ⟨st, h1, _, _, h4⟩ := decoder_correct hb hparts chunks hchunks
  obtain ⟨stR, g1, _, _, g4⟩ := decoder_correct hb hparts [encodeStream b parts] (by simp)
  exact ⟨st, stR, h1, g1, by rw [h4, g4], h4⟩

/-- Witness for C1 at a concrete stream split into one-byte chunks. -/
theorem multipart_chunking_invariant_witness :
    ∃ st stRef,
      runChunks [66] initState
        ((encodeStream [66] [([102], [104, 105])]).map (fun c => [c])) = .ok st ∧
      runChunks [66] initState [encodeStream [66] [([102], [104, 105])]] = .ok stRef ∧
      outputsOf st = outputsOf stRef ∧ outputsOf st = [([102], [104, 105])] :=
  multipart_chunking_invariant [66] [([102], [104, 105])] _
    (by
      refine ⟨by unfold goodBoundary; decide, ?_⟩
      intro pr hpr
      have hpr' : pr = ([102], [104, 105]) := by simpa using hpr
      subst hpr'
      exact ⟨by unfold goodName; decide, noOcc_of_check (by decide)⟩)
    (by decide)

/-- C2 counterexample: a stream that ends right after a start-boundary and
header block makes the decoder return normally (`Except.ok`), with the
zero-payload file still open — it does not fail with a truncation error and
does not close the file. -/
theorem truncation_no_error_cex :
    runChunks [66] initState [headerBlock [66] [102]] =
      .ok ⟨[], some ⟨[102], [], false⟩, [], false, 27⟩ ∧
    (runChunks [66] initState [headerBlock [66] [102]]).isOk = true := by decide

/-- C2 (amended): for every well-formed stream truncated at any point —
any chunking whose concatenation is a prefix of the encoded stream — the
decoder raises no error and returns normally, and any still-open output
file is left open (it is never closed by the decoder); in particular a
stream ending right after a start-boundary and header block returns
normally and leaves a zero-payload open file for that part. -/
theorem truncation_silent_return :
    (∀ (b : List Byte) (parts : List (List Byte × List Byte)) (chunks : List (List Byte)),
      wellFormed b parts → chunks.flatten <+: encodeStream b parts →
      ∃ st, runChunks b initState chunks = .ok st ∧
        ∀ f, st.current = some f → f.closed = false) ∧
    (∀ (b n : List Byte), goodBoundary b → goodName n →
      ∃ st, runChunks b initState [headerBlock b n] = .ok st ∧
        st.files = [] ∧ st.current = some ⟨n, [], false⟩ ∧ st.buffer = [] ∧
        outputsOf st = [(n, [])]) := by
  constructor
  · intro b parts chunks hwf hpre
    obtain ⟨hb, hparts⟩ := hwf
    have hg0 : Good b parts initState [] := Or.inl ⟨0, Nat.zero_le _, rfl, rfl, rfl⟩
    obtain ⟨st, hrun, hg⟩ := run_preserves_good_prefix hb hparts chunks initState []
      hg0 (by simpa using hpre)
    exact ⟨st, hrun, good_current_open hg⟩
  · intro b n hb hn
    exact truncated_header_run b n hb hn

/-- Witness for the amended C2: a mid-marker truncation in three chunks,
and the header-only stream. -/
theorem truncation_silent_return_witness :
    (∃ st, runChunks [66] initState [[13, 10], [45], [45, 66]] = .ok st ∧
      ∀ f, st.current = some f → f.closed = false) ∧
    (∃ st, runChunks [66] initState [headerBlock [66] [102]] = .ok st ∧
      st.files = [] ∧ st.current = some ⟨[102], [], false⟩ ∧ st.buffer = [] ∧
      outputsOf st = [([102], [])]) :=
  ⟨truncation_silent_return.1 [66] [([102], [104, 105])] [[13, 10], [45], [45, 66]]
    ⟨by unfold goodBoundary; decide, by
      intro pr hpr
      have hpr2 : pr = ([102], [104, 105]) := by simpa using hpr
      subst hpr2
      exact ⟨by unfold goodName; decide, noOcc_of_check (by decide)⟩⟩
    (by decide),
   truncation_silent_return.2 [66] [102] (by unfold goodBoundary; decide)
    (by unfold goodName; decide)⟩

/-- C3: on a zero-part stream consisting of the terminal marker alone, the
terminal-marker branch never runs — the start-of-part test subsumes it —
so `done` (the `print("Done")` success path) stays `false`, the buffer is
left holding the terminal marker, and no success is ever recorded, even
though the buffer begins with the terminal marker. -/
theorem terminal_branch_never_fires :
    runChunks [66] initState [terminalMarker [66]] =
      .ok ⟨[13, 10, 45, 45, 66, 45, 45], none, [], false, 7⟩ ∧
    (terminalMarker [66]).isPrefixOf [13, 10, 45, 45, 66, 45, 45] = true := by decide

/-- C4 counterexample: with boundary `B` (so `len(boundary_token) + 4 = 5`)
and 20 payload bytes pending, the decoder stops to wait with all 20 bytes
withheld in the buffer while the part is open — more than the claimed
bound. -/
theorem withheld_tail_exceeds_spec_bound :
    runChunks [66] initState [headerBlock [66] [102] ++ List.replicate 20 97] =
      .ok ⟨List.replicate 20 97, some ⟨[102], [], false⟩, [], false, 47⟩ ∧
    ¬ (List.replicate (20 : Nat) (97 : Byte)).length ≤ ([66] : List Byte).length + 4 := by
  decide

/-- Witness for the amended C4 at the same concrete input. -/
theorem withheld_tail_at_most_chunk_size_witness :
    (⟨List.replicate 20 97, some ⟨[102], [], false⟩, [], false, 47⟩ : MState).buffer.length ≤
      CHUNK_SIZE :=
  withheld_tail_at_most_chunk_size [66]
    ⟨headerBlock [66] [102] ++ List.replicate 20 97, none, [], false, 47⟩
    ⟨List.replicate 20 97, some ⟨[102], [], false⟩, [], false, 47⟩
    (by decide) (by decide)

/-- C5 counterexample: a complete stream whose header block lacks
`X-Part-Name` produces no error at all (the run returns `Except.ok`) — the
decoder does not surface a protocol error. -/
theorem missing_name_no_protocol_error_cex :
    runChunks [66] initState
      [marker [66] ++ [13, 10] ++ [67, 84, 58, 32, 120] ++ crlf2 ++ [104, 105] ++
        terminalMarker [66]] =
      .ok ⟨[104, 105, 13, 10, 45, 45, 66, 45, 45], none, [], false, 25⟩ := by decide

/-- C5 (amended): whenever the decoder handles a fully received header
block lacking the required name field — any state whose buffer starts with
the part marker and whose header bytes up to the terminator yield no name —
it raises no error at that step and creates no output file with an empty or
garbage name or otherwise: it continues with no open file, with the files
on disk unchanged beyond closing the previously open part, and with the
header block discarded.  A complete concrete stream with a nameless part
likewise runs to completion with zero output files, while header parsing
does recognize quoted names containing spaces. -/
theorem missing_name_silently_skipped :
    (∀ (b : List Byte) (fuel : Nat) (st : MState) (he : Nat),
      st.buffer ≠ [] → (marker b).isPrefixOf st.buffer = true →
      findSub crlf2 st.buffer = some he →
      (st.buffer.take he).all (· ≤ 127) = true →
      extractPartName (st.buffer.take he) = none →
      ∃ st2, processBufferFuel b (fuel + 1) st = processBufferFuel b fuel st2 ∧
        st2.current = none ∧ st2.files = (closeCurrent st).files ∧
        st2.buffer = st.buffer.drop (he + 4)) ∧
    (runChunks [66] initState
      [marker [66] ++ [13, 10] ++ [67, 84, 58, 32, 120] ++ crlf2 ++ [104, 105] ++
        terminalMarker [66]]).map outputsOf = .ok [] ∧
    extractPartName (strBytes "X-Part-Name: \"my file.txt\"") =
      some (strBytes "my file.txt") := by
  refine ⟨?_, by decide, by decide⟩
  intro b fuel st he hemp hpre hfind hasc hex
  refine ⟨{ closeCurrent st with buffer := st.buffer.drop (he + 4) },
    pbf_nameless b fuel st hemp hpre hfind hasc hex, ?_, rfl, rfl⟩
  exact closeCurrent_current st

/-- Witness for the amended C5 at a concrete nameless header block. -/
theorem missing_name_silently_skipped_witness :
    ∃ st2, processBufferFuel [66] (0 + 1)
        ⟨[13, 10, 45, 45, 66, 13, 10, 67, 13, 10, 13, 10], none, [], false, 0⟩ =
      processBufferFuel [66] 0 st2 ∧
      st2.current = none ∧
      st2.files = (closeCurrent
        ⟨[13, 10, 45, 45, 66, 13, 10, 67, 13, 10, 13, 10], none, [], false, 0⟩).files ∧
      st2.buffer =
        ([13, 10, 45, 45, 66, 13, 10, 67, 13, 10, 13, 10] : List Byte).drop (8 + 4) :=
  missing_name_silently_skipped.1 [66] 0
    ⟨[13, 10, 45, 45, 66, 13, 10, 67, 13, 10, 13, 10], none, [], false, 0⟩ 8
    (by decide) (by decide) (by decide) (by decide) (by decide)

/-- C6: when the Content-Type metadata contains no `boundary=` parameter,
the multipart handler fails with the configuration error before touching
the chunk source — the result is the same error for every chunk list, so no
bytes are consumed and no files are created. -/
theorem missing_boundary_config_error (ct : String) (chunks : List (List Byte))
    (h : noOcc boundaryKey ct.data) :
    handleMultipartResponse ct chunks = .error .noBoundary := by
  have hfs : findSub boundaryKey ct.data = none :=
    findSub_none_of_noOcc h List.prefix_rfl
  simp only [handleMultipartResponse, boundaryOf, hfs]

/-- Witness for C6. -/
theorem missing_boundary_config_error_witness :
    handleMultipartResponse "application/json" [[1, 2, 3]] = .error .noBoundary :=
  missing_boundary_config_error "application/json" [[1, 2, 3]]
    (noOcc_of_check (by decide))

/-- C9 counterexample: `boundary=` with an empty value yields the empty
boundary token, and the decoder proceeds past extraction with it — the
extracted token is not necessarily non-empty. -/
theorem boundary_token_empty_cex :
    boundaryOf "multipart/mixed; boundary=" = some [] ∧
    handleMultipartResponse "multipart/mixed; boundary=" [] = .ok initState := by decide

/-- C9 (amended): whenever boundary extraction succeeds, the token is
exactly the raw bytes following the first `boundary=` up to the end of the
line — possibly empty, with no normalization. -/
theorem boundary_token_exact_suffix (ct : String) (tok : List Byte)
    (h : boundaryOf ct = some tok) :
    ∃ pre post, ct.data = pre ++ boundaryKey ++ post ∧
      tok = strBytes (String.mk (post.takeWhile (fun c => c ≠ '\n'))) := by
  rw [boundaryOf] at h
  cases hfs : findSub boundaryKey ct.data with
  | none =>
    rw [hfs] at h
    cases h
  | some i =>
    rw [hfs] at h
    have h' : some (strBytes (String.mk ((ct.data.drop (i + 9)).takeWhile
        (fun c => c ≠ '\n')))) = some tok := h
    obtain ⟨r, hr⟩ := findSub_some hfs
    have hr9 : ct.data.drop (i + 9) = r := by
      rw [← List.drop_drop, ← hr,
        show (9 : Nat) = boundaryKey.length from rfl, List.drop_left]
    refine ⟨ct.data.take i, r, ?_, ?_⟩
    · conv_lhs => rw [← List.take_append_drop i ct.data]
      rw [← hr, List.append_assoc]
    · rw [hr9] at h'
      exact (Option.some_inj.mp h').symm

/-- Witness for the amended C9. -/
theorem boundary_token_exact_suffix_witness :
    ∃ pre post, ("multipart/form-data; boundary=XYZ").data = pre ++ boundaryKey ++ post ∧
      [88, 89, 90] = strBytes (String.mk (post.takeWhile (fun c => c ≠ '\n'))) :=
  boundary_token_exact_suffix "multipart/form-data; boundary=XYZ" [88, 89, 90] (by decide)

/-- C10: `Client.download` catches every error from its body —
configuration, protocol, I/O, decode or transport — prints a message and
returns normally; no exception ever escapes to the caller. -/
theorem download_catches_all_errors (r : PyResponse) :
    ∃ msg, download r = .returned msg := by
  cases h : downloadInner r with
  | ok u => exact ⟨none, by simp [download, h]⟩
  | error e => exact ⟨some (errorMessage e), by simp [download, h]⟩

/-- Unfolds `fmt2` once the rounded integer value is known. -/
theorem fmt2_of_floor {q : ℚ} {m : Nat} (hm : ⌊q * 100 + 1 / 2⌋ = ((m : Nat) : Int)) :
    fmt2 q = natStr (m / 100) ++ "." ++
      (if m % 100 < 10 then "0" ++ natStr (m % 100) else natStr (m % 100)) := by
  have h1 : (((m : Nat) : Int) / 100).toNat = m / 100 := by omega
  have h2 : (((m : Nat) : Int) % 100).toNat = m % 100 := by omega
  simp only [fmt2]
  rw [hm, h1, h2]

/-- C7: the speed computation returns `(0, 0)` when elapsed time is zero —
no arithmetic error — and formatting walks the 1024-divisor unit ladder
B/s, KB/s, MB/s, GB/s, TB/s with two-decimal precision; in particular 1536
bytes over 1 second formats as "1.50 KB/s" for both current and average
speed, and zero elapsed time formats as "0.00 B/s". -/
theorem speed_calc_and_format :
    (∀ (br tb : Nat), calculateSpeed br tb 0 = (0, 0)) ∧
    formatSpeed (calculateSpeed 1536 1536 1).1 = "1.50 KB/s" ∧
    formatSpeed (calculateSpeed 1536 1536 1).2 = "1.50 KB/s" ∧
    formatSpeed (calculateSpeed 1536 9999 0).1 = "0.00 B/s" ∧
    formatSpeed (calculateSpeed 1536 9999 0).2 = "0.00 B/s" ∧
    formatSpeed 1 = "1.00 B/s" ∧
    formatSpeed 1024 = "1.00 KB/s" ∧
    formatSpeed (1024 ^ 2) = "1.00 MB/s" ∧
    formatSpeed (1024 ^ 3) = "1.00 GB/s" ∧
    formatSpeed (1024 ^ 4) = "1.00 TB/s" := by
  have hz : ∀ (br tb : Nat), calculateSpeed br tb 0 = (0, 0) := by
    intro br tb
    simp [calculateSpeed]
  have h1536 : formatSpeed 1536 = "1.50 KB/s" := by
    have e1 : ¬ ((1536 : ℚ) < 1024) := by norm_num
    have e2 : (1536 : ℚ) / 1024 < 1024 := by norm_num
    have e3 : ⌊(1536 : ℚ) / 1024 * 100 + 1 / 2⌋ = ((150 : Nat) : Int) := by
      rw [Int.floor_eq_iff] ; norm_num
    rw [formatSpeed, formatSpeedGo, if_neg e1, formatSpeedGo, if_pos e2, fmt2_of_floor e3]
    decide
  have h0 : formatSpeed 0 = "0.00 B/s" := by
    have e1 : (0 : ℚ) < 1024 := by norm_num
    have e3 : ⌊(0 : ℚ) * 100 + 1 / 2⌋ = ((0 : Nat) : Int) := by
      rw [Int.floor_eq_iff] ; norm_num
    rw [formatSpeed, formatSpeedGo, if_pos e1, fmt2_of_floor e3]
    decide
  refine ⟨hz, ?_, ?_, ?_, ?_, ?_, ?_, ?_, ?_, ?_⟩
  · have hc : (calculateSpeed 1536 1536 1).1 = (1536 : ℚ) := by norm_num [calculateSpeed]
    rw [hc, h1536]
  · have hc : (calculateSpeed 1536 1536 1).2 = (1536 : ℚ) := by norm_num [calculateSpeed]
    rw [hc, h1536]
  · rw [hz 1536 9999, h0]
  · rw [hz 1536 9999, h0]
  · have e1 : (1 : ℚ) < 1024 := by norm_num
    have e3 : ⌊(1 : ℚ) * 100 + 1 / 2⌋ = ((100 : Nat) : Int) := by
      rw [Int.floor_eq_iff] ; norm_num
    rw [formatSpeed, formatSpeedGo, if_pos e1, fmt2_of_floor e3]
    decide
  · have e1 : ¬ ((1024 : ℚ) < 1024) := by norm_num
    have e2 : (1024 : ℚ) / 1024 < 1024 := by norm_num
    have e3 : ⌊(1024 : ℚ) / 1024 * 100 + 1 / 2⌋ = ((100 : Nat) : Int) := by
      rw [Int.floor_eq_iff] ; norm_num
    rw [formatSpeed, formatSpeedGo, if_neg e1, formatSpeedGo, if_pos e2, fmt2_of_floor e3]
    decide
  · have e1 : ¬ ((1024 : ℚ) ^ 2 < 1024) := by norm_num
    have e2 : ¬ ((1024 : ℚ) ^ 2 / 1024 < 1024) := by norm_num
    have e3 : (1024 : ℚ) ^ 2 / 1024 / 1024 < 1024 := by norm_num
    have e4 : ⌊(1024 : ℚ) ^ 2 / 1024 / 1024 * 100 + 1 / 2⌋ = ((100 : Nat) : Int) := by
      rw [Int.floor_eq_iff] ; norm_num
    rw [formatSpeed, formatSpeedGo, if_neg e1, formatSpeedGo, if_neg e2, formatSpeedGo,
      if_pos e3, fmt2_of_floor e4]
    decide
  · have e1 : ¬ ((1024 : ℚ) ^ 3 < 1024) := by norm_num
    have e2 : ¬ ((1024 : ℚ) ^ 3 / 1024 < 1024) := by norm_num
    have e3 : ¬ ((1024 : ℚ) ^ 3 / 1024 / 1024 < 1024) := by norm_num
    have e4 : (1024 : ℚ) ^ 3 / 1024 / 1024 / 1024 < 1024 := by norm_num
    have e5 : ⌊(1024 : ℚ) ^ 3 / 1024 / 1024 / 1024 * 100 + 1 / 2⌋ = ((100 : Nat) : Int) := by
      rw [Int.floor_eq_iff] ; norm_num
    rw [formatSpeed, formatSpeedGo, if_neg e1, formatSpeedGo, if_neg e2, formatSpeedGo,
      if_neg e3, formatSpeedGo, if_pos e4, fmt2_of_floor e5]
    decide
  · have e1 : ¬ ((1024 : ℚ) ^ 4 < 1024) := by norm_num
    have e2 : ¬ ((1024 : ℚ) ^ 4 / 1024 < 1024) := by norm_num
    have e3 : ¬ ((1024 : ℚ) ^ 4 / 1024 / 1024 < 1024) := by norm_num
    have e4 : ¬ ((1024 : ℚ) ^ 4 / 1024 / 1024 / 1024 < 1024) := by norm_num
    have e5 : ⌊(1024 : ℚ) ^ 4 / 1024 / 1024 / 1024 / 1024 * 100 + 1 / 2⌋ =
        ((100 : Nat) : Int) := by
      rw [Int.floor_eq_iff] ; norm_num
    rw [formatSpeed, formatSpeedGo, if_neg e1, formatSpeedGo, if_neg e2, formatSpeedGo,
      if_neg e3, formatSpeedGo, if_neg e4, formatSpeedGo, fmt2_of_floor e5]
    decide

/-- The skip-empty write loop appends exactly the concatenation of the
chunks. -/
theorem writeSkipEmpty_eq_flatten :
    ∀ (chunks : List (List Byte)) (acc : List Byte),
      chunks.foldl (fun acc ck => if ck = [] then acc else acc ++ ck) acc =
        acc ++ chunks.flatten := by
  intro chunks
  induction chunks with
  | nil =>
    intro acc
    simp
  | cons c cs ih =>
    intro acc
    by_cases hc : c = []
    · subst hc
      simp [ih]
    · simp only [List.foldl_cons, if_neg hc, ih, List.flatten_cons, List.append_assoc]

/-- C8: with a filename hint, the single-file handler writes the chunks in
arrival order to exactly one file whose content is the concatenation of the
chunks (so a declared total of S bytes yields exactly S bytes on disk);
without a Content-Disposition header, or without a filename hint in it, it
fails. -/
theorem single_file_sequential_write :
    (∀ (cd : String) (fn : List Char) (chunks : List (List Byte)),
      searchFilename cd.data = some fn →
        handleSingleFileResponse (some cd) chunks = .ok (String.mk fn, chunks.flatten) ∧
        chunks.flatten.length = (chunks.map List.length).sum) ∧
    (∀ chunks, handleSingleFileResponse none chunks = .error .noContentDisposition) ∧
    (∀ (cd : String) (chunks : List (List Byte)), searchFilename cd.data = none →
      handleSingleFileResponse (some cd) chunks = .error .noFilename) := by
  refine ⟨?_, fun chunks => rfl, ?_⟩
  · intro cd fn chunks hfn
    constructor
    · simp only [handleSingleFileResponse, hfn, writeSkipEmpty_eq_flatten, List.nil_append]
    · simp
  · intro cd chunks hnone
    simp only [handleSingleFileResponse, hnone]

/-- Witness for C8. -/
theorem single_file_sequential_write_witness :
    handleSingleFileResponse (some "attachment; filename=\"data.bin\"") [[1, 2], [], [3]] =
      .ok ("data.bin", [1, 2, 3]) ∧
    ([[1, 2], [], [3]] : List (List Byte)).flatten.length =
      (([[1, 2], [], [3]] : List (List Byte)).map List.length).sum :=
  single_file_sequential_write.1 "attachment; filename=\"data.bin\""
    ['d', 'a', 't', 'a', '.', 'b', 'i', 'n'] [[1, 2], [], [3]] (by decide)
